import Mathlib

/-!
Verification of the feesim queueing simulator and its estimators.

Go source is embedded shallowly:
* `float64` values are modelled as exact rationals (`ℚ`);
* `int64` / `int` values as `ℤ` / `ℕ` (the embedded code paths never
  overflow: the only increments are guarded, e.g. `sfr++` only when
  `sfr < MaxFeeRate`);
* Go's `sort.Search` (binary search) is embedded as `goSearch`;
* randomness is externalised: functions that draw from a random source
  (`BlockSource.Next`, `TxSource.Generate`) become parameters holding the
  drawn values, so the deterministic core of each operation is a pure
  function of the draws.
-/

namespace Feesim

/-- `FeeRate` is an `int64` in satoshis per kB (sim/common.go). -/
abbrev FeeRate := Int

/-- `TxSize` is an `int64` in bytes (sim/common.go). -/
abbrev TxSize := Int

/-- `MaxFeeRate FeeRate = math.MaxInt64` (sim/common.go). -/
def MaxFeeRate : FeeRate := 9223372036854775807

/-- `float64(math.MaxInt64)` rounds to `2^63`; used where the Go code
converts `MaxFeeRate` to `float64`. -/
def maxFeeRateF : ℚ := 9223372036854775808

/-- `math.MaxFloat64 = (2 - 2^-52) * 2^1023 = (2^53 - 1) * 2^971`. -/
def maxFloat64 : ℚ := (2 ^ 53 - 1) * 2 ^ 971

/-- `math.MaxInt32`. -/
def maxInt32 : ℕ := 2147483647

/-- A simulation transaction: fee rate and size (sim/common.go `Tx`).
`Parents` is cleared by `NewSim` for every initial-mempool tx (sim/sim.go
lines 55-57) and tx sources generate dependency-free txs, so the
`children` lists of all reachable txs are empty and the dependency fields
are omitted from the embedding. -/
structure Tx where
  feeRate : FeeRate
  size : TxSize
  deriving Repr, DecidableEq

instance : Inhabited Tx := ⟨⟨0, 0⟩⟩

/-! ## Go `sort.Search`: binary search

`sort.Search(n, f)` from the Go standard library:

    i, j := 0, n
    for i < j {
        h := int(uint(i+j) >> 1)
        if !f(h) { i = h + 1 } else { j = h }
    }
    return i
-/

/-- The loop of Go's `sort.Search`.  The loop runs at most `j - i` times
(the interval shrinks at every step), so it is embedded with an explicit
fuel argument that the wrapper `goSearch` instantiates with an adequate
bound; this keeps the definition structurally recursive and hence
evaluable by the kernel. -/
def goSearchAux (f : ℕ → Bool) : ℕ → ℕ → ℕ → ℕ
  | 0, i, _ => i
  | fuel + 1, i, j =>
    if i < j then
      let m := (i + j) / 2
      if f m then goSearchAux f fuel i m else goSearchAux f fuel (m + 1) j
    else i

/-- `sort.Search n f`. -/
def goSearch (n : ℕ) (f : ℕ → Bool) : ℕ := goSearchAux f n 0 n

/-- A predicate is monotone below `n` (in the `sort.Search` sense) if,
among indices below `n`, once true it stays true.  `sort.Search n f` only
ever evaluates `f` on indices below `n`. -/
def SearchMono (n : ℕ) (f : ℕ → Bool) : Prop :=
  ∀ a b, a ≤ b → b < n → f a = true → f b = true

theorem goSearchAux_bounds (f : ℕ → Bool) :
    ∀ fuel i j, j - i ≤ fuel → i ≤ j →
      i ≤ goSearchAux f fuel i j ∧ goSearchAux f fuel i j ≤ j := by
  intro fuel
  induction fuel with
  | zero => intro i j hfuel hij; simp [goSearchAux]; omega
  | succ fuel ih =>
    intro i j hfuel hij
    rw [goSearchAux]
    by_cases hlt : i < j
    · rw [if_pos hlt]
      have hm1 : i ≤ (i + j) / 2 := by omega
      have hm2 : (i + j) / 2 < j := by omega
      by_cases hf : f ((i + j) / 2)
      · simp only [hf, if_pos]
        have := ih i ((i + j) / 2) (by omega) hm1
        omega
      · simp only [hf, if_neg, Bool.false_eq_true, not_false_iff]
        have := ih ((i + j) / 2 + 1) j (by omega) (by omega)
        omega
    · rw [if_neg hlt]
      omega

theorem goSearchAux_false_below (n : ℕ) (f : ℕ → Bool) (hf : SearchMono n f) :
    ∀ fuel i j, j - i ≤ fuel → i ≤ j → j ≤ n →
      ∀ k, i ≤ k → k < goSearchAux f fuel i j → f k = false := by
  intro fuel
  induction fuel with
  | zero => intro i j hfuel hij hjn k hik hk; rw [goSearchAux] at hk; omega
  | succ fuel ih =>
    intro i j hfuel hij hjn k hik hk
    rw [goSearchAux] at hk
    by_cases hlt : i < j
    · rw [if_pos hlt] at hk
      have hm1 : i ≤ (i + j) / 2 := by omega
      have hm2 : (i + j) / 2 < j := by omega
      by_cases hfm : f ((i + j) / 2)
      · simp only [hfm, if_pos] at hk
        exact ih i ((i + j) / 2) (by omega) hm1 (by omega) k hik hk
      · simp only [hfm, if_neg, Bool.false_eq_true, not_false_iff] at hk
        rcases Nat.lt_or_ge k ((i + j) / 2 + 1) with h | h
        · -- k ≤ m and f m = false, so f k = false by monotonicity
          by_contra hc
          have hkt : f k = true := by revert hc; cases f k <;> simp
          have := hf k ((i + j) / 2) (by omega) (by omega) hkt
          simp [this] at hfm
        · exact ih ((i + j) / 2 + 1) j (by omega) (by omega) hjn k h hk
    · rw [if_neg hlt] at hk
      omega

theorem goSearchAux_true_at (f : ℕ → Bool) :
    ∀ fuel i j, j - i ≤ fuel → i ≤ j → goSearchAux f fuel i j < j →
      f (goSearchAux f fuel i j) = true := by
  intro fuel
  induction fuel with
  | zero => intro i j hfuel hij hlt; rw [goSearchAux] at hlt ⊢; omega
  | succ fuel ih =>
    intro i j hfuel hij hlt
    rw [goSearchAux] at hlt ⊢
    by_cases hij2 : i < j
    · rw [if_pos hij2] at hlt ⊢
      have hm1 : i ≤ (i + j) / 2 := by omega
      have hm2 : (i + j) / 2 < j := by omega
      by_cases hfm : f ((i + j) / 2)
      · simp only [hfm, if_pos] at hlt ⊢
        rcases Nat.lt_or_ge (goSearchAux f fuel i ((i + j) / 2)) ((i + j) / 2) with h | h
        · exact ih i ((i + j) / 2) (by omega) hm1 h
        · have := goSearchAux_bounds f fuel i ((i + j) / 2) (by omega) hm1
          have heq : goSearchAux f fuel i ((i + j) / 2) = (i + j) / 2 := by omega
          rw [heq]; exact hfm
      · simp only [hfm, if_neg, Bool.false_eq_true, not_false_iff] at hlt ⊢
        exact ih ((i + j) / 2 + 1) j (by omega) (by omega) hlt
    · rw [if_neg hij2] at hlt
      omega

theorem goSearch_le (n : ℕ) (f : ℕ → Bool) : goSearch n f ≤ n :=
  (goSearchAux_bounds f n 0 n (by omega) (Nat.zero_le n)).2

theorem goSearch_false_below (n : ℕ) (f : ℕ → Bool) (hf : SearchMono n f) :
    ∀ k, k < goSearch n f → f k = false :=
  fun k hk =>
    goSearchAux_false_below n f hf n 0 n (by omega) (Nat.zero_le n) (Nat.le_refl n)
      k (Nat.zero_le k) hk

theorem goSearch_true_at (n : ℕ) (f : ℕ → Bool) (h : goSearch n f < n) :
    f (goSearch n f) = true :=
  goSearchAux_true_at f n 0 n (by omega) (Nat.zero_le n) h

/-- For a monotone predicate with a witness below `n`, `sort.Search`
returns the least index satisfying the predicate. -/
theorem goSearch_least (n : ℕ) (f : ℕ → Bool) (hf : SearchMono n f)
    (k : ℕ) (hk : k < n) (hfk : f k = true) :
    goSearch n f ≤ k ∧ f (goSearch n f) = true ∧
      ∀ m, m < goSearch n f → f m = false := by
  have hle : goSearch n f ≤ k := by
    by_contra h
    have := goSearch_false_below n f hf k (by omega)
    simp [hfk] at this
  exact ⟨hle, goSearch_true_at n f (by omega), goSearch_false_below n f hf⟩

/-! ## Monotone rate functions (sim/common.go)

`float64` arrays become `List ℚ`.  `sort.SearchFloat64s(a, x)` is
`sort.Search(len(a), func(i) bool { return a[i] >= x })`.
-/

/-- `sort.SearchFloat64s`. -/
def searchFloat64s (a : List ℚ) (x : ℚ) : ℕ :=
  goSearch a.length (fun i => decide (a.getD i 0 ≥ x))

/-- `TxRateFn`: parallel arrays, `x` sorted, `y` reverse sorted
(sim/common.go lines 98-158). -/
structure TxRateFn where
  x : List ℚ
  y : List ℚ
  deriving Repr, DecidableEq

/-- `TxRateFn.Eval` (sim/common.go lines 116-122). -/
def TxRateFn.Eval (f : TxRateFn) (x0 : ℚ) : ℚ :=
  let i := searchFloat64s f.x x0
  if i < f.x.length then f.y.getD i 0 else 0

/-- `TxRateFn.Inverse` (sim/common.go lines 126-132). -/
def TxRateFn.Inverse (f : TxRateFn) (y0 : ℚ) : ℚ :=
  let idx := goSearch f.y.length (fun i => decide (f.y.getD i 0 ≤ y0))
  if idx = 0 then 0 else f.x.getD (idx - 1) 0 + 1

/-- `CapRateFn`: parallel arrays, both sorted
(sim/common.go lines 167-228). -/
structure CapRateFn where
  x : List ℚ
  y : List ℚ
  deriving Repr, DecidableEq

/-- `CapRateFn.Eval` (sim/common.go lines 182-192). -/
def CapRateFn.Eval (f : CapRateFn) (x0 : ℚ) : ℚ :=
  let i := searchFloat64s f.x x0
  if i < f.y.length ∧ f.x.getD i 0 = x0 then f.y.getD i 0
  else if 0 < i then f.y.getD (i - 1) 0
  else 0

/-- `CapRateFn.Inverse` (sim/common.go lines 196-205). -/
def CapRateFn.Inverse (f : CapRateFn) (y0 : ℚ) : ℚ :=
  if y0 ≤ 0 then 0
  else
    let idx := searchFloat64s f.y y0
    if idx = f.y.length then maxFeeRateF else f.x.getD idx 0

/-- The knot-deduplication loop shared by `TxRateFn.Approx` and
`CapRateFn.Approx` (sim/common.go lines 145-155 and 214-225): walk the
raw knots, appending a knot (and its `Eval`) whenever it differs from the
previous one. -/
def dedupKnots (e : ℚ → ℚ) : ℚ → List ℚ → List ℚ → List ℚ → List ℚ × List ℚ
  | _, xd, yd, [] => (xd, yd)
  | xprev, xd, yd, xi :: rest =>
    if xi ≠ xprev then dedupKnots e xi (xd ++ [xi]) (yd ++ [e xi]) rest
    else dedupKnots e xi xd yd rest

/-- `TxRateFn.Approx` (sim/common.go lines 134-158).  Requires `1 ≤ n`
(the Go code indexes `x[0]`). -/
def TxRateFn.Approx (f : TxRateFn) (n : ℕ) : TxRateFn :=
  if f.x.length = 0 then ⟨[], []⟩
  else
    let mx := f.Eval 0
    let xs :=
      (List.range n).map (fun i : ℕ => f.Inverse ((((n : ℚ) - (i : ℚ)) * mx) / (n : ℚ)))
    let x0 := xs.headD 0
    let p := dedupKnots f.Eval x0 [x0] [f.Eval x0] xs
    ⟨p.1, p.2⟩

/-- `CapRateFn.Approx` (sim/common.go lines 207-228): same knot grid, but
deduplicated from the back of the raw knot array.  Requires `1 ≤ n`. -/
def CapRateFn.Approx (f : CapRateFn) (n : ℕ) : CapRateFn :=
  let mx := f.Eval maxFloat64 - 1
  let xs :=
    (List.range n).map (fun i : ℕ => f.Inverse ((((n : ℚ) - (i : ℚ)) * mx) / (n : ℚ)))
  let rev := xs.reverse
  let x0 := rev.headD 0
  let p := dedupKnots f.Eval x0 [x0] [f.Eval x0] rev
  ⟨p.1, p.2⟩

/-- Go `int(q)` for a `float64` `q`: truncation toward zero. -/
def goTrunc (q : ℚ) : ℤ := if 0 ≤ q then ⌊q⌋ else ⌈q⌉

/-- The stable-fee computation of `NewSim` (sim/sim.go lines 59-81). -/
def newSimStableFee (txratefn : TxRateFn) (capratefn : CapRateFn) : FeeRate :=
  let highfee := txratefn.Inverse 0
  let maxcap := capratefn.Eval maxFloat64
  let lowfee := capratefn.Inverse 1
  let n : ℕ :=
    if highfee > (maxInt32 : ℚ) then maxInt32 else (goTrunc highfee).toNat
  ((goSearch n fun i =>
      decide (maxcap > txratefn.Eval (i : ℚ)) && decide ((i : ℤ) ≥ goTrunc lowfee) : ℕ) : ℤ)

/-! ## Properties of `searchFloat64s` on sorted arrays -/

theorem sorted_getD_le (xs : List ℚ) (h : xs.Sorted (· ≤ ·)) {a b : ℕ}
    (hab : a ≤ b) (hb : b < xs.length) : xs.getD a 0 ≤ xs.getD b 0 := by
  have ha : a < xs.length := lt_of_le_of_lt hab hb
  rw [List.getD_eq_get _ _ ha, List.getD_eq_get _ _ hb]
  rcases Nat.eq_or_lt_of_le hab with rfl | hlt
  · exact le_refl _
  · exact h.rel_get_of_lt (by simpa using hlt)

theorem sorted_getD_ge (ys : List ℚ) (h : ys.Sorted (· ≥ ·)) {a b : ℕ}
    (hab : a ≤ b) (hb : b < ys.length) : ys.getD b 0 ≤ ys.getD a 0 := by
  have ha : a < ys.length := lt_of_le_of_lt hab hb
  rw [List.getD_eq_get _ _ ha, List.getD_eq_get _ _ hb]
  rcases Nat.eq_or_lt_of_le hab with rfl | hlt
  · exact le_refl _
  · exact h.rel_get_of_lt (by simpa using hlt)

theorem chain_getD_lt (xs : List ℚ) (h : List.Chain' (· < ·) xs) {a b : ℕ}
    (hab : a < b) (hb : b < xs.length) : xs.getD a 0 < xs.getD b 0 := by
  have ha : a < xs.length := lt_trans hab hb
  rw [List.getD_eq_get _ _ ha, List.getD_eq_get _ _ hb]
  have hs : xs.Sorted (· < ·) := List.chain'_iff_pairwise.mp h
  exact hs.rel_get_of_lt (by simpa using hab)

theorem searchF_le (xs : List ℚ) (x0 : ℚ) : searchFloat64s xs x0 ≤ xs.length :=
  goSearch_le _ _

theorem searchF_searchMono (xs : List ℚ) (h : xs.Sorted (· ≤ ·)) (x0 : ℚ) :
    SearchMono xs.length (fun i => decide (xs.getD i 0 ≥ x0)) := by
  intro a b hab hb hfa
  simp only [decide_eq_true_iff, ge_iff_le] at hfa ⊢
  exact le_trans hfa (sorted_getD_le xs h hab hb)

theorem searchF_below (xs : List ℚ) (h : xs.Sorted (· ≤ ·)) (x0 : ℚ) :
    ∀ k, k < searchFloat64s xs x0 → xs.getD k 0 < x0 := by
  intro k hk
  have h2 := goSearch_false_below xs.length _ (searchF_searchMono xs h x0) k hk
  simp only [decide_eq_false_iff_not, ge_iff_le, not_le] at h2
  exact h2

theorem searchF_at (xs : List ℚ) (x0 : ℚ)
    (h : searchFloat64s xs x0 < xs.length) :
    x0 ≤ xs.getD (searchFloat64s xs x0) 0 := by
  have h2 := goSearch_true_at xs.length (fun i => decide (xs.getD i 0 ≥ x0)) h
  simp only [decide_eq_true_iff, ge_iff_le] at h2
  exact h2

theorem searchF_le_of_ge (xs : List ℚ) (h : xs.Sorted (· ≤ ·)) (x0 : ℚ)
    {k : ℕ} (hk : k < xs.length) (hge : x0 ≤ xs.getD k 0) :
    searchFloat64s xs x0 ≤ k := by
  by_contra hc
  have := searchF_below xs h x0 k (by omega)
  exact absurd hge (by exact not_le.mpr this)

theorem searchF_mono_arg (xs : List ℚ) (h : xs.Sorted (· ≤ ·)) {x0 x1 : ℚ}
    (h01 : x0 ≤ x1) : searchFloat64s xs x0 ≤ searchFloat64s xs x1 := by
  rcases Nat.lt_or_ge (searchFloat64s xs x1) xs.length with hlt | hge
  · exact searchF_le_of_ge xs h x0 hlt (le_trans h01 (searchF_at xs x1 hlt))
  · have := searchF_le xs x0
    omega

theorem txRateFn_eval_nonneg (f : TxRateFn) (hynn : ∀ v ∈ f.y, 0 ≤ v)
    (hlen : f.y.length = f.x.length) (t : ℚ) : 0 ≤ f.Eval t := by
  unfold TxRateFn.Eval
  by_cases hc : searchFloat64s f.x t < f.x.length
  · rw [if_pos hc]
    apply hynn
    rw [List.getD_eq_get f.y 0 (by omega)]
    exact List.get_mem _ _ _
  · rw [if_neg hc]

/-- `TxRateFn.Eval` is antitone: the reverse-cumulative byte rate can only
shrink as the fee-rate threshold rises. -/
theorem txRateFn_eval_anti (f : TxRateFn) (hx : f.x.Sorted (· ≤ ·))
    (hy : f.y.Sorted (· ≥ ·)) (hlen : f.y.length = f.x.length)
    (hynn : ∀ v ∈ f.y, 0 ≤ v) {x0 x1 : ℚ} (h01 : x0 ≤ x1) :
    f.Eval x1 ≤ f.Eval x0 := by
  unfold TxRateFn.Eval
  have hmono := searchF_mono_arg f.x hx h01
  by_cases hc1 : searchFloat64s f.x x1 < f.x.length
  · have hc0 : searchFloat64s f.x x0 < f.x.length := by omega
    rw [if_pos hc1, if_pos hc0]
    exact sorted_getD_ge f.y hy hmono (by omega)
  · rw [if_neg hc1]
    exact txRateFn_eval_nonneg f hynn hlen x0

theorem getD_mem (xs : List ℚ) {i : ℕ} (h : i < xs.length) : xs.getD i 0 ∈ xs := by
  rw [List.getD_eq_get xs 0 h]
  exact List.get_mem _ _ _

theorem goTrunc_natCast (k : ℕ) : goTrunc ((k : ℕ) : ℚ) = (k : ℤ) := by
  unfold goTrunc
  rw [if_pos (by positivity)]
  exact_mod_cast Int.floor_natCast k

/-- `TxRateFn.Inverse` returns a natural number when all knots are
natural numbers (the knots are `float64` conversions of nonnegative
`int64` fee rates). -/
theorem txRateFn_inverse_natval (f : TxRateFn) (hlen : f.y.length = f.x.length)
    (hxint : ∀ v ∈ f.x, ∃ k : ℕ, v = (k : ℚ)) (y0 : ℚ) :
    ∃ H : ℕ, f.Inverse y0 = (H : ℚ) := by
  unfold TxRateFn.Inverse
  by_cases hc : goSearch f.y.length (fun i => decide (f.y.getD i 0 ≤ y0)) = 0
  · exact ⟨0, by rw [if_pos hc]; norm_num⟩
  · rw [if_neg hc]
    have hle := goSearch_le f.y.length (fun i => decide (f.y.getD i 0 ≤ y0))
    have hlt : goSearch f.y.length (fun i => decide (f.y.getD i 0 ≤ y0)) - 1 < f.x.length := by
      omega
    obtain ⟨k, hk⟩ := hxint _ (getD_mem f.x hlt)
    exact ⟨k + 1, by rw [hk]; push_cast; ring⟩

/-- `CapRateFn.Inverse` returns a natural number when all knots are
natural numbers (`float64(MaxFeeRate)` is the natural number `2^63`). -/
theorem capRateFn_inverse_natval (f : CapRateFn) (hlen : f.y.length = f.x.length)
    (hxint : ∀ v ∈ f.x, ∃ k : ℕ, v = (k : ℚ)) (y0 : ℚ) :
    ∃ L : ℕ, f.Inverse y0 = (L : ℚ) := by
  unfold CapRateFn.Inverse
  by_cases h0 : y0 ≤ 0
  · exact ⟨0, by rw [if_pos h0]; norm_num⟩
  · rw [if_neg h0]
    by_cases hc : searchFloat64s f.y y0 = f.y.length
    · exact ⟨9223372036854775808, by rw [if_pos hc]; norm_num [maxFeeRateF]⟩
    · rw [if_neg hc]
      have hle := searchF_le f.y y0
      have hlt : searchFloat64s f.y y0 < f.x.length := by omega
      obtain ⟨k, hk⟩ := hxint _ (getD_mem f.x hlt)
      exact ⟨k, hk⟩

/-- C1: for every `Sim` built by `NewSim`, the computed `stable_fee` is
the smallest integer fee rate `f` with `f ≥ lowfee` and
`maxcap > txratefn.Eval f`, where `maxcap = capratefn.Eval(MaxFloat64)`
and `lowfee = capratefn.Inverse 1`, under the precondition that some such
integer exists below `min(txratefn.Inverse 0, 2^31 - 1)`.  Hypotheses:
the rate-function arrays satisfy the ordering and length invariants
enforced (by panic) in their constructors, byte rates are nonnegative,
and the knots are `float64` images of nonnegative integer fee rates. -/
theorem newSimStableFee_least
    (txf : TxRateFn) (capf : CapRateFn)
    (htxx : txf.x.Sorted (· ≤ ·)) (htxy : txf.y.Sorted (· ≥ ·))
    (htxlen : txf.y.length = txf.x.length)
    (htxynn : ∀ v ∈ txf.y, 0 ≤ v)
    (htxxint : ∀ v ∈ txf.x, ∃ k : ℕ, v = (k : ℚ))
    (hcaplen : capf.y.length = capf.x.length)
    (hcapxint : ∀ v ∈ capf.x, ∃ k : ℕ, v = (k : ℚ))
    (hex : ∃ fq : ℕ, (fq : ℚ) < txf.Inverse 0 ∧ (fq : ℚ) < (maxInt32 : ℚ) ∧
      capf.Inverse 1 ≤ (fq : ℚ) ∧ txf.Eval (fq : ℚ) < capf.Eval maxFloat64) :
    capf.Inverse 1 ≤ ((newSimStableFee txf capf : ℤ) : ℚ) ∧
      txf.Eval ((newSimStableFee txf capf : ℤ) : ℚ) < capf.Eval maxFloat64 ∧
      ∀ g : ℤ, g < newSimStableFee txf capf →
        ¬(capf.Inverse 1 ≤ (g : ℚ) ∧ txf.Eval (g : ℚ) < capf.Eval maxFloat64) := by
  obtain ⟨H, hH⟩ := txRateFn_inverse_natval txf htxlen htxxint 0
  obtain ⟨L, hL⟩ := capRateFn_inverse_natval capf hcaplen hcapxint 1
  obtain ⟨fq, hfq1, hfq2, hfq3, hfq4⟩ := hex
  set maxcap := capf.Eval maxFloat64 with hmaxcap
  set pred : ℕ → Bool :=
    (fun i => decide (maxcap > txf.Eval (i : ℚ)) && decide ((i : ℤ) ≥ goTrunc (capf.Inverse 1)))
    with hpred
  set nv : ℕ :=
    (if txf.Inverse 0 > (maxInt32 : ℚ) then maxInt32 else (goTrunc (txf.Inverse 0)).toNat)
    with hnv
  have hsf : newSimStableFee txf capf = ((goSearch nv pred : ℕ) : ℤ) := by
    simp only [newSimStableFee, hpred, hnv, hmaxcap]
  have htrL : goTrunc (capf.Inverse 1) = (L : ℤ) := by rw [hL]; exact goTrunc_natCast L
  have hnvval : nv = if (H : ℚ) > (maxInt32 : ℚ) then maxInt32 else H := by
    rw [hnv, hH]
    by_cases hc : (H : ℚ) > (maxInt32 : ℚ)
    · rw [if_pos hc, if_pos hc]
    · rw [if_neg hc, if_neg hc, goTrunc_natCast, Int.toNat_natCast]
  have hmono : SearchMono nv pred := by
    intro a b hab hb hfa
    rw [hpred] at hfa ⊢
    simp only [Bool.and_eq_true, decide_eq_true_iff, ge_iff_le, gt_iff_lt] at hfa ⊢
    refine ⟨lt_of_le_of_lt ?_ hfa.1, le_trans hfa.2 (by exact_mod_cast hab)⟩
    exact txRateFn_eval_anti txf htxx htxy htxlen htxynn (by exact_mod_cast hab)
  have hfqnv : fq < nv := by
    rw [hnvval]
    by_cases hc : (H : ℚ) > (maxInt32 : ℚ)
    · rw [if_pos hc]
      exact_mod_cast hfq2
    · rw [if_neg hc]
      rw [hH] at hfq1
      exact_mod_cast hfq1
  have hfqpred : pred fq = true := by
    rw [hpred]
    simp only [Bool.and_eq_true, decide_eq_true_iff, ge_iff_le, gt_iff_lt]
    refine ⟨hfq4, ?_⟩
    rw [htrL]
    rw [hL] at hfq3
    exact_mod_cast hfq3
  obtain ⟨hle, htrue, hbelow⟩ := goSearch_least nv pred hmono fq hfqnv hfqpred
  set r := goSearch nv pred with hr
  rw [hpred] at htrue
  simp only [Bool.and_eq_true, decide_eq_true_iff, ge_iff_le, gt_iff_lt] at htrue
  have hLnn : (0 : ℚ) ≤ capf.Inverse 1 := by rw [hL]; positivity
  refine ⟨?_, ?_, ?_⟩
  · rw [hsf, hL]
    have h2 := htrue.2
    rw [htrL] at h2
    exact_mod_cast h2
  · rw [hsf]
    exact_mod_cast htrue.1
  · intro g hg ⟨hg1, hg2⟩
    rcases lt_or_ge g 0 with hneg | hpos
    · have : (g : ℚ) < 0 := by exact_mod_cast hneg
      exact absurd hg1 (by linarith)
    · have hglt : g.toNat < goSearch nv pred := by
        rw [hsf] at hg
        omega
      have hfalse := hbelow g.toNat hglt
      rw [hpred] at hfalse
      simp only [Bool.and_eq_true, decide_eq_true_iff, ge_iff_le, gt_iff_lt,
        Bool.and_eq_false_iff, decide_eq_false_iff_not, not_lt, not_le] at hfalse
      have hcast : ((g.toNat : ℕ) : ℚ) = (g : ℚ) := by
        exact_mod_cast Int.toNat_of_nonneg hpos
      rcases hfalse with hf | hf
      · rw [hcast] at hf
        exact absurd hg2 (not_lt.mpr hf)
      · rw [htrL] at hf
        rw [Int.toNat_of_nonneg hpos] at hf
        rw [hL] at hg1
        have : (L : ℤ) ≤ g := by exact_mod_cast hg1
        omega

/-- Witness for C1 at a concrete instance: one tx stratum (fee rate 10,
byte rate 30), one capacity stratum (min fee 5, capacity 50); the
computed stable fee satisfies both defining conditions. -/
theorem newSimStableFee_least_witness :
    CapRateFn.Inverse ⟨[5], [50]⟩ 1 ≤
        ((newSimStableFee ⟨[10], [30]⟩ ⟨[5], [50]⟩ : ℤ) : ℚ) ∧
      TxRateFn.Eval ⟨[10], [30]⟩ ((newSimStableFee ⟨[10], [30]⟩ ⟨[5], [50]⟩ : ℤ) : ℚ) <
        CapRateFn.Eval ⟨[5], [50]⟩ maxFloat64 :=
  have h := newSimStableFee_least ⟨[10], [30]⟩ ⟨[5], [50]⟩
    (by decide) (by decide) (by decide) (by decide)
    (by intro v hv; simp at hv; exact ⟨10, by norm_num [hv]⟩)
    (by decide)
    (by intro v hv; simp at hv; exact ⟨5, by norm_num [hv]⟩)
    ⟨5, by norm_num [TxRateFn.Inverse, goSearch, goSearchAux],
        by norm_num [maxInt32],
        by norm_num [CapRateFn.Inverse, searchFloat64s, goSearch, goSearchAux],
        by norm_num [TxRateFn.Eval, CapRateFn.Eval, searchFloat64s, goSearch, goSearchAux,
          maxFloat64]⟩
  ⟨h.1, h.2.1⟩

/-! ## `Approx` preserves `Eval` at the returned knots -/

theorem dedupKnots_zip (e : ℚ → ℚ) :
    ∀ xs xprev xd yd, yd.length = xd.length →
      (∀ k, k < xd.length → yd.getD k 0 = e (xd.getD k 0)) →
      (dedupKnots e xprev xd yd xs).2.length = (dedupKnots e xprev xd yd xs).1.length ∧
        ∀ k, k < (dedupKnots e xprev xd yd xs).1.length →
          (dedupKnots e xprev xd yd xs).2.getD k 0 =
            e ((dedupKnots e xprev xd yd xs).1.getD k 0) := by
  intro xs
  induction xs with
  | nil => intro xprev xd yd hlen hzip; exact ⟨hlen, hzip⟩
  | cons xi rest ih =>
    intro xprev xd yd hlen hzip
    rw [dedupKnots]
    by_cases hne : xi ≠ xprev
    · rw [if_pos hne]
      refine ih xi (xd ++ [xi]) (yd ++ [e xi]) (by simp [hlen]) ?_
      intro k hk
      simp only [List.length_append, List.length_singleton] at hk
      rcases Nat.lt_or_ge k xd.length with h | h
      · rw [List.getD_append _ _ _ _ (hlen ▸ h), List.getD_append _ _ _ _ h]
        exact hzip k h
      · have hkx : k = xd.length := by omega
        subst hkx
        rw [List.getD_append_right _ _ _ _ (by omega), List.getD_append_right _ _ _ _ (by omega),
          hlen]
        simp
    · rw [if_neg hne]
      exact ih xi xd yd hlen hzip

theorem dedupKnots_chain (e : ℚ → ℚ) :
    ∀ xs xprev xd yd, List.Chain' (· ≤ ·) (xprev :: xs) →
      xd ≠ [] → List.Chain' (· < ·) xd → xd.getLast? = some xprev →
      List.Chain' (· < ·) (dedupKnots e xprev xd yd xs).1 := by
  intro xs
  induction xs with
  | nil => intro xprev xd yd _ _ hchain _; exact hchain
  | cons xi rest ih =>
    intro xprev xd yd hsorted hne hchain hlast
    rw [dedupKnots]
    have hxi : xprev ≤ xi := (List.chain'_cons.mp hsorted).1
    have hrest : List.Chain' (· ≤ ·) (xi :: rest) := (List.chain'_cons.mp hsorted).2
    by_cases hnex : xi ≠ xprev
    · rw [if_pos hnex]
      refine ih xi (xd ++ [xi]) (yd ++ [e xi]) hrest (by simp) ?_ (by simp)
      rw [List.chain'_append]
      refine ⟨hchain, List.chain'_singleton xi, ?_⟩
      intro a ha b hb
      simp only [List.head?_cons, Option.mem_def, Option.some.injEq] at hb
      rw [hlast] at ha
      simp only [Option.mem_def, Option.some.injEq] at ha
      subst ha; subst hb
      exact lt_of_le_of_ne hxi (by simpa [eq_comm] using hnex)
    · rw [if_neg hnex]
      push_neg at hnex
      refine ih xi xd yd hrest hne hchain ?_
      rw [hlast, hnex]

theorem dedupKnots_ne_nil (e : ℚ → ℚ) :
    ∀ xs xprev xd yd, xd ≠ [] → (dedupKnots e xprev xd yd xs).1 ≠ [] := by
  intro xs
  induction xs with
  | nil => intro xprev xd yd h; exact h
  | cons xi rest ih =>
    intro xprev xd yd h
    rw [dedupKnots]
    by_cases hne : xi ≠ xprev
    · rw [if_pos hne]; exact ih xi _ _ (by simp)
    · rw [if_neg hne]; exact ih xi _ _ h

/-- `TxRateFn.Inverse` is antitone (given the constructor invariants and
nonnegative knots). -/
theorem txRateFn_inverse_anti (f : TxRateFn) (hx : f.x.Sorted (· ≤ ·))
    (hy : f.y.Sorted (· ≥ ·)) (hlen : f.y.length = f.x.length)
    (hxnn : ∀ v ∈ f.x, 0 ≤ v) {y0 y1 : ℚ} (h01 : y0 ≤ y1) :
    f.Inverse y1 ≤ f.Inverse y0 := by
  unfold TxRateFn.Inverse
  have hmono : ∀ y : ℚ, SearchMono f.y.length (fun i => decide (f.y.getD i 0 ≤ y)) := by
    intro y a b hab hb hfa
    simp only [decide_eq_true_iff] at hfa ⊢
    exact le_trans (sorted_getD_ge f.y hy hab hb) hfa
  have hidx : goSearch f.y.length (fun i => decide (f.y.getD i 0 ≤ y1)) ≤
      goSearch f.y.length (fun i => decide (f.y.getD i 0 ≤ y0)) := by
    set i0 := goSearch f.y.length (fun i => decide (f.y.getD i 0 ≤ y0)) with hi0
    by_contra hc
    push_neg at hc
    have hlt : i0 < f.y.length := by
      have := goSearch_le f.y.length (fun i => decide (f.y.getD i 0 ≤ y1))
      omega
    have htrue := goSearch_true_at f.y.length (fun i => decide (f.y.getD i 0 ≤ y0)) hlt
    have hfalse := goSearch_false_below f.y.length _ (hmono y1) i0 hc
    simp only [decide_eq_true_iff] at htrue
    simp only [decide_eq_false_iff_not, not_le] at hfalse
    linarith
  by_cases hz : goSearch f.y.length (fun i => decide (f.y.getD i 0 ≤ y1)) = 0
  · rw [if_pos hz]
    by_cases hz0 : goSearch f.y.length (fun i => decide (f.y.getD i 0 ≤ y0)) = 0
    · rw [if_pos hz0]
    · rw [if_neg hz0]
      have hle := goSearch_le f.y.length (fun i => decide (f.y.getD i 0 ≤ y0))
      have := hxnn _ (getD_mem f.x
        (show goSearch f.y.length (fun i => decide (f.y.getD i 0 ≤ y0)) - 1 < f.x.length by
          omega))
      linarith
  · rw [if_neg hz]
    have hz0 : goSearch f.y.length (fun i => decide (f.y.getD i 0 ≤ y0)) ≠ 0 := by omega
    rw [if_neg hz0]
    have hle := goSearch_le f.y.length (fun i => decide (f.y.getD i 0 ≤ y0))
    have h1 : goSearch f.y.length (fun i => decide (f.y.getD i 0 ≤ y1)) - 1 ≤
        goSearch f.y.length (fun i => decide (f.y.getD i 0 ≤ y0)) - 1 := by omega
    have h2 : goSearch f.y.length (fun i => decide (f.y.getD i 0 ≤ y0)) - 1 < f.x.length := by
      omega
    have := sorted_getD_le f.x hx h1 h2
    linarith

/-- `CapRateFn.Inverse` is monotone (given the constructor invariants,
nonnegative knots, and knots at most `float64(MaxFeeRate)`). -/
theorem capRateFn_inverse_mono (f : CapRateFn) (hx : f.x.Sorted (· ≤ ·))
    (hy : f.y.Sorted (· ≤ ·)) (hlen : f.y.length = f.x.length)
    (hxnn : ∀ v ∈ f.x, 0 ≤ v) (hxle : ∀ v ∈ f.x, v ≤ maxFeeRateF)
    {y0 y1 : ℚ} (h01 : y0 ≤ y1) :
    f.Inverse y0 ≤ f.Inverse y1 := by
  simp only [CapRateFn.Inverse]
  have hmaxnn : (0 : ℚ) ≤ maxFeeRateF := by norm_num [maxFeeRateF]
  by_cases h0 : y0 ≤ 0
  · rw [if_pos h0]
    by_cases h1 : y1 ≤ 0
    · rw [if_pos h1]
    · rw [if_neg h1]
      by_cases hc : searchFloat64s f.y y1 = f.y.length
      · rw [if_pos hc]; exact hmaxnn
      · rw [if_neg hc]
        have h2 := searchF_le f.y y1
        exact hxnn _ (getD_mem f.x (by omega))
  · have h1 : ¬y1 ≤ 0 := fun hh => h0 (le_trans h01 hh)
    rw [if_neg h0, if_neg h1]
    have hidx := searchF_mono_arg f.y hy h01
    by_cases hc1 : searchFloat64s f.y y1 = f.y.length
    · rw [if_pos hc1]
      by_cases hc0 : searchFloat64s f.y y0 = f.y.length
      · rw [if_pos hc0]
      · rw [if_neg hc0]
        have h2 := searchF_le f.y y0
        exact hxle _ (getD_mem f.x (by omega))
    · rw [if_neg hc1]
      have h2 := searchF_le f.y y1
      have hc0 : searchFloat64s f.y y0 ≠ f.y.length := by omega
      rw [if_neg hc0]
      exact sorted_getD_le f.x hx hidx (by omega)

/-- A function with strictly increasing knots evaluates to the stored
`y` at each of its own knots (TxRateFn form). -/
theorem txRateFn_eval_self (g : TxRateFn) (hchain : List.Chain' (· < ·) g.x)
    (hlen : g.y.length = g.x.length) {k : ℕ} (hk : k < g.x.length) :
    g.Eval (g.x.getD k 0) = g.y.getD k 0 := by
  have hsorted : g.x.Sorted (· ≤ ·) := by
    have := List.chain'_iff_pairwise.mp hchain
    exact this.imp le_of_lt
  have hsearch : searchFloat64s g.x (g.x.getD k 0) = k := by
    have hle := searchF_le_of_ge g.x hsorted (g.x.getD k 0) hk (le_refl _)
    rcases Nat.eq_or_lt_of_le hle with h | h
    · exact h
    · exfalso
      have hat := searchF_at g.x (g.x.getD k 0) (by omega)
      have hpair := List.chain'_iff_pairwise.mp hchain
      set idx := searchFloat64s g.x (g.x.getD k 0) with hidxdef
      clear_value idx
      have hlt : g.x.getD idx 0 < g.x.getD k 0 := chain_getD_lt g.x hchain h hk
      linarith
  unfold TxRateFn.Eval
  rw [hsearch, if_pos hk]

/-- A function with strictly increasing knots evaluates to the stored
`y` at each of its own knots (CapRateFn form). -/
theorem capRateFn_eval_self (g : CapRateFn) (hchain : List.Chain' (· < ·) g.x)
    (hlen : g.y.length = g.x.length) {k : ℕ} (hk : k < g.x.length) :
    g.Eval (g.x.getD k 0) = g.y.getD k 0 := by
  have hsorted : g.x.Sorted (· ≤ ·) := by
    have := List.chain'_iff_pairwise.mp hchain
    exact this.imp le_of_lt
  have hsearch : searchFloat64s g.x (g.x.getD k 0) = k := by
    have hle := searchF_le_of_ge g.x hsorted (g.x.getD k 0) hk (le_refl _)
    rcases Nat.eq_or_lt_of_le hle with h | h
    · exact h
    · exfalso
      have hat := searchF_at g.x (g.x.getD k 0) (by omega)
      have hpair := List.chain'_iff_pairwise.mp hchain
      set idx := searchFloat64s g.x (g.x.getD k 0) with hidxdef
      clear_value idx
      have hlt : g.x.getD idx 0 < g.x.getD k 0 := chain_getD_lt g.x hchain h hk
      linarith
  unfold CapRateFn.Eval
  rw [hsearch, if_pos ⟨by omega, rfl⟩]

theorem chain'_headD_cons (l : List ℚ) (h : List.Chain' (· ≤ ·) l) :
    List.Chain' (· ≤ ·) (l.headD 0 :: l) := by
  cases l with
  | nil => exact List.chain'_singleton _
  | cons a t => exact List.chain'_cons.mpr ⟨le_refl a, h⟩

/-- Structure of `TxRateFn.Approx`: knots strictly increase, the arrays
have equal length, and each stored `y` is the original `Eval` at the
corresponding knot. -/
theorem txApprox_spec (f : TxRateFn) (hx : f.x.Sorted (· ≤ ·))
    (hy : f.y.Sorted (· ≥ ·)) (hlen : f.y.length = f.x.length)
    (hynn : ∀ v ∈ f.y, 0 ≤ v) (hxnn : ∀ v ∈ f.x, 0 ≤ v) (n : ℕ) :
    (f.Approx n).y.length = (f.Approx n).x.length ∧
      List.Chain' (· < ·) (f.Approx n).x ∧
      ∀ k, k < (f.Approx n).x.length →
        (f.Approx n).y.getD k 0 = f.Eval ((f.Approx n).x.getD k 0) := by
  by_cases hne : f.x.length = 0
  · simp only [TxRateFn.Approx, if_pos hne]
    refine ⟨by simp, List.chain'_nil, ?_⟩
    intro k hk
    simp at hk
  · simp only [TxRateFn.Approx, if_neg hne]
    set mx := f.Eval 0 with hmx
    have hmxnn : 0 ≤ mx := txRateFn_eval_nonneg f hynn hlen 0
    set h := fun i : ℕ => f.Inverse ((((n : ℚ) - (i : ℚ)) * mx) / (n : ℚ)) with hh
    set xs := (List.range n).map h with hxs
    have hchainxs : List.Chain' (· ≤ ·) xs := by
      rw [hxs, List.chain'_map]
      cases n with
      | zero => simp
      | succ m =>
        rw [List.chain'_range_succ]
        intro i him
        rw [hh]
        apply txRateFn_inverse_anti f hx hy hlen hxnn
        have hn0 : (0 : ℚ) < ((m + 1 : ℕ) : ℚ) := by positivity
        refine (div_le_div_right hn0).mpr (mul_le_mul_of_nonneg_right ?_ hmxnn)
        push_cast
        linarith
    have hchain0 : List.Chain' (· ≤ ·) (xs.headD 0 :: xs) := chain'_headD_cons xs hchainxs
    obtain ⟨hl, hz⟩ := dedupKnots_zip f.Eval xs (xs.headD 0) [xs.headD 0]
      [f.Eval (xs.headD 0)] (by simp)
      (by intro k hk
          have hk0 : k = 0 := by simp at hk; omega
          subst hk0
          simp)
    refine ⟨hl, ?_, hz⟩
    exact dedupKnots_chain f.Eval xs (xs.headD 0) [xs.headD 0] [f.Eval (xs.headD 0)]
      hchain0 (by simp) (List.chain'_singleton _) (by simp)

/-- Structure of `CapRateFn.Approx`: knots strictly increase, the arrays
have equal length, and each stored `y` is the original `Eval` at the
corresponding knot. -/
theorem capApprox_spec (f : CapRateFn) (hx : f.x.Sorted (· ≤ ·))
    (hy : f.y.Sorted (· ≤ ·)) (hlen : f.y.length = f.x.length)
    (hxnn : ∀ v ∈ f.x, 0 ≤ v) (hxle : ∀ v ∈ f.x, v ≤ maxFeeRateF) (n : ℕ) :
    (f.Approx n).y.length = (f.Approx n).x.length ∧
      List.Chain' (· < ·) (f.Approx n).x ∧
      ∀ k, k < (f.Approx n).x.length →
        (f.Approx n).y.getD k 0 = f.Eval ((f.Approx n).x.getD k 0) := by
  simp only [CapRateFn.Approx]
  set mx := f.Eval maxFloat64 - 1 with hmx
  set h := fun i : ℕ => f.Inverse ((((n : ℚ) - (i : ℚ)) * mx) / (n : ℚ)) with hh
  set xs := (List.range n).map h with hxs
  have hstep : ∀ i : ℕ, i + 1 < n → h (i + 1) ≤ h i := by
    intro i hi
    simp only [hh]
    rcases le_or_lt 0 mx with hmxnn | hmxneg
    · apply capRateFn_inverse_mono f hx hy hlen hxnn hxle
      have hn0 : (0 : ℚ) < (n : ℚ) := by
        have h2 : 0 < n := by omega
        positivity
      refine (div_le_div_right hn0).mpr (mul_le_mul_of_nonneg_right ?_ hmxnn)
      push_cast
      linarith
    · have hz : ∀ j : ℕ, j < n → f.Inverse ((((n : ℚ) - (j : ℚ)) * mx) / (n : ℚ)) = 0 := by
        intro j hj
        have hneg : (((n : ℚ) - (j : ℚ)) * mx) / (n : ℚ) ≤ 0 := by
          have hn0 : (0 : ℚ) < (n : ℚ) := by
            have : 0 < n := by omega
            positivity
          have hpos : (0 : ℚ) < (n : ℚ) - (j : ℚ) := by
            have : (j : ℚ) < (n : ℚ) := by exact_mod_cast hj
            linarith
          apply div_nonpos_of_nonpos_of_nonneg _ hn0.le
          nlinarith
        simp only [CapRateFn.Inverse, if_pos hneg]
      rw [hz (i + 1) hi, hz i (by omega)]
  have hchainrev : List.Chain' (· ≤ ·) xs.reverse := by
    rw [List.chain'_reverse, hxs, List.chain'_map]
    cases n with
    | zero => simp
    | succ m =>
      rw [List.chain'_range_succ]
      intro i him
      exact hstep i (by omega)
  have hchain0 : List.Chain' (· ≤ ·) (xs.reverse.headD 0 :: xs.reverse) :=
    chain'_headD_cons _ hchainrev
  obtain ⟨hl, hz⟩ := dedupKnots_zip f.Eval xs.reverse (xs.reverse.headD 0)
    [xs.reverse.headD 0] [f.Eval (xs.reverse.headD 0)] (by simp)
    (by intro k hk
        have hk0 : k = 0 := by simp at hk; omega
        subst hk0
        simp)
  refine ⟨hl, ?_, hz⟩
  exact dedupKnots_chain f.Eval xs.reverse (xs.reverse.headD 0) [xs.reverse.headD 0]
    [f.Eval (xs.reverse.headD 0)] hchain0 (by simp) (List.chain'_singleton _) (by simp)

/-- C8: for every `TxRateFn` and every `CapRateFn` `f` satisfying the
constructor invariants (with nonnegative knots bounded by
`float64(MaxFeeRate)` and nonnegative byte rates), and every `n ≥ 1`,
`g = f.Approx n` satisfies `g.Eval x = f.Eval x` at every knot `x` of
`g`. -/
theorem approx_preserves_eval
    (tf : TxRateFn) (cf : CapRateFn) (n : ℕ) (hn : 1 ≤ n)
    (htxx : tf.x.Sorted (· ≤ ·)) (htxy : tf.y.Sorted (· ≥ ·))
    (htxlen : tf.y.length = tf.x.length) (htxynn : ∀ v ∈ tf.y, 0 ≤ v)
    (htxxnn : ∀ v ∈ tf.x, 0 ≤ v)
    (hcx : cf.x.Sorted (· ≤ ·)) (hcy : cf.y.Sorted (· ≤ ·))
    (hclen : cf.y.length = cf.x.length) (hcxnn : ∀ v ∈ cf.x, 0 ≤ v)
    (hcxle : ∀ v ∈ cf.x, v ≤ maxFeeRateF) :
    (∀ k, k < (tf.Approx n).x.length →
      (tf.Approx n).Eval ((tf.Approx n).x.getD k 0) =
        tf.Eval ((tf.Approx n).x.getD k 0)) ∧
    (∀ k, k < (cf.Approx n).x.length →
      (cf.Approx n).Eval ((cf.Approx n).x.getD k 0) =
        cf.Eval ((cf.Approx n).x.getD k 0)) := by
  obtain ⟨htl, htc, htz⟩ := txApprox_spec tf htxx htxy htxlen htxynn htxxnn n
  obtain ⟨hcl, hcc, hcz⟩ := capApprox_spec cf hcx hcy hclen hcxnn hcxle n
  constructor
  · intro k hk
    rw [txRateFn_eval_self (tf.Approx n) htc htl hk]
    exact htz k hk
  · intro k hk
    rw [capRateFn_eval_self (cf.Approx n) hcc hcl hk]
    exact hcz k hk

/-- Witness for C8: the two-knot approximations of the concrete rate
functions from the C1 witness agree with the originals at their first
knot. -/
theorem approx_preserves_eval_witness :
    (TxRateFn.Approx ⟨[10], [30]⟩ 2).Eval ((TxRateFn.Approx ⟨[10], [30]⟩ 2).x.getD 0 0) =
        TxRateFn.Eval ⟨[10], [30]⟩ ((TxRateFn.Approx ⟨[10], [30]⟩ 2).x.getD 0 0) ∧
      (CapRateFn.Approx ⟨[5], [50]⟩ 2).Eval ((CapRateFn.Approx ⟨[5], [50]⟩ 2).x.getD 0 0) =
        CapRateFn.Eval ⟨[5], [50]⟩ ((CapRateFn.Approx ⟨[5], [50]⟩ 2).x.getD 0 0) :=
  have h := approx_preserves_eval ⟨[10], [30]⟩ ⟨[5], [50]⟩ 2 (by norm_num)
    (by decide) (by decide) (by decide) (by decide)
    (by intro v hv; simp at hv; norm_num [hv])
    (by decide) (by decide) (by decide)
    (by intro v hv; simp at hv; norm_num [hv])
    (by intro v hv; simp at hv; norm_num [hv, maxFeeRateF])
  ⟨h.1 0 (by norm_num [TxRateFn.Approx, TxRateFn.Eval, TxRateFn.Inverse, dedupKnots,
      searchFloat64s, goSearch, goSearchAux, List.range_succ]),
    h.2 0 (by norm_num [CapRateFn.Approx, CapRateFn.Eval, CapRateFn.Inverse, dedupKnots,
      searchFloat64s, goSearch, goSearchAux, List.range_succ, maxFloat64])⟩

/-! ## `IndBlockSource.RateFn` (sim/indblock.go lines 55-81) -/

/-- The cumulative-sum loop of `IndBlockSource.RateFn` (lines 74-79):
`ratesum += m[f] * avgmbs * blockrate; y[i] = ratesum`. -/
def cumSums (g : ℚ → ℚ) : List ℚ → ℚ → List ℚ
  | [], _ => []
  | v :: rest, acc => (acc + g v) :: cumSums g rest (acc + g v)

/-- `IndBlockSource.RateFn`.  The Go code allocates
`x := make([]float64, len(m))` — a slice of `len(m)` zeros — and then
`append`s the map keys to it, so the sorted knot array carries `len(m)`
extra zero entries.  The frequency map `m` is embedded as a count
(`float64` additions of `1/len` are modelled exactly in `ℚ`; `float64(f)`
is modelled as the exact cast, faithful for all fee rates below `2^53`).
`sort.Float64s` is a comparison sort, so its output is the unique
ascending reordering of the values, embedded via `insertionSort`. -/
def indBlockRateFn (minfeerates : List FeeRate) (maxblocksizes : List TxSize)
    (blockrate : ℚ) : CapRateFn :=
  let sizesum : TxSize := maxblocksizes.foldl (· + ·) 0
  let avgmbs : ℚ := (sizesum : ℚ) / (maxblocksizes.length : ℚ)
  let keysrc := (minfeerates.filter (fun f => decide (f < MaxFeeRate))).map (fun f => (f : ℚ))
  let mfun : ℚ → ℚ := fun v => (keysrc.count v : ℚ) * (1 / (minfeerates.length : ℚ))
  let keys := keysrc.dedup
  let x := (List.replicate keys.length 0 ++ keys).insertionSort (· ≤ ·)
  let y := cumSums (fun v => mfun v * avgmbs * blockrate) x 0
  ⟨x, y⟩

/-- C6 evaluated at the failing input `minfeerates = [0]`,
`maxblocksizes = [1000]`, `blockrate = 1`: the code's rate function
evaluates to `2000` at fee rate `1`, while the claimed sum over strata
`f' ≤ 1` is `q_0 · avg_max_size · blockrate = 1 · 1000 · 1 = 1000`
(second conjunct) — the zero-fee stratum is double-counted because the
knot array is pre-filled with `len(m)` zeros before the keys are
appended. -/
theorem indBlockRateFn_zero_stratum_bug :
    (indBlockRateFn [0] [1000] 1).Eval 1 = 2000 ∧
      ((([(0 : FeeRate)] : List FeeRate).count 0 : ℚ) /
          (([(0 : FeeRate)] : List FeeRate).length : ℚ)) * 1000 * 1 = 1000 := by
  constructor
  · norm_num [indBlockRateFn, CapRateFn.Eval, cumSums, searchFloat64s, goSearch, goSearchAux,
      List.insertionSort, List.orderedInsert, MaxFeeRate, List.count_cons, List.dedup]
  · norm_num

/-! ## The transaction priority queue (sim/heap.go)

The Go code manipulates a slice by index with simultaneous-assignment
swaps; the embedding uses `List Tx` with `getq`/`swapq`.  The sift loops
`down` and `up` run at most `n` resp. `j + 1` times, so they carry an
explicit fuel argument instantiated with an adequate bound by their
callers, keeping them kernel-evaluable. -/

/-- Read index `i` (Go `q[i]`). -/
def getq (q : List Tx) (i : ℕ) : Tx := q.getD i ⟨0, 0⟩

/-- Go `q[i], q[j] = q[j], q[i]`. -/
def swapq (q : List Tx) (i j : ℕ) : List Tx := (q.set i (getq q j)).set j (getq q i)

/-- `txqueue.down(i, n)` (sim/heap.go lines 43-59). -/
def downq : ℕ → List Tx → ℕ → ℕ → List Tx
  | 0, q, _, _ => q
  | fuel + 1, q, i, n =>
    let j1 := 2 * i + 1
    if j1 < n then
      let j :=
        if j1 + 1 < n ∧ (getq q j1).feeRate ≤ (getq q (j1 + 1)).feeRate then j1 + 1 else j1
      if (getq q j).feeRate ≤ (getq q i).feeRate then q
      else downq fuel (swapq q i j) j n
    else q

/-- `txqueue.up(j)` (sim/heap.go lines 32-41). -/
def upq : ℕ → List Tx → ℕ → List Tx
  | 0, q, _ => q
  | fuel + 1, q, j =>
    let i := (j - 1) / 2
    if i = j ∨ (getq q j).feeRate ≤ (getq q i).feeRate then q
    else upq fuel (swapq q i j) i

/-- The loop of `txqueue.init` (sim/heap.go lines 9-15): sift down at
indices `k-1, k-2, ..., 0`. -/
def initLoopq (n : ℕ) : ℕ → List Tx → List Tx
  | 0, q => q
  | k + 1, q => initLoopq n k (downq n q k n)

/-- `txqueue.init`: heapify in place. -/
def heapInitq (q : List Tx) : List Tx := initLoopq q.length (q.length / 2) q

/-- `txqueue.push` (sim/heap.go lines 17-20). -/
def pushq (q : List Tx) (tx : Tx) : List Tx :=
  upq (q.length + 1) (q ++ [tx]) q.length

/-- `txqueue.pop` (sim/heap.go lines 22-30).  The Go code assumes a
non-empty queue (it would panic otherwise). -/
def popq (q : List Tx) : Tx × List Tx :=
  let n := q.length - 1
  let q1 := swapq q 0 n
  let q2 := downq q.length q1 0 n
  (getq q2 n, q2.take n)

/-- `c` is a (binary-tree) child index of `p`. -/
def childIdx (p c : ℕ) : Prop := c = 2 * p + 1 ∨ c = 2 * p + 2

/-- Heap order on the first `n` entries: every in-range child is at most
its parent by fee rate. -/
def IsHeapN (q : List Tx) (n : ℕ) : Prop :=
  ∀ p c, c < n → childIdx p c → (getq q c).feeRate ≤ (getq q p).feeRate

/-! ### Basic index/swap lemmas -/

theorem length_swapq (q : List Tx) (i j : ℕ) : (swapq q i j).length = q.length := by
  simp [swapq]

theorem getq_set_self {q : List Tx} {i : ℕ} (h : i < q.length) (a : Tx) :
    getq (q.set i a) i = a := by
  simp only [getq, List.getD_eq_getD_get?, List.get?_set_eq_of_lt a h, Option.getD_some]

theorem getq_set_other {q : List Tx} {i k : ℕ} (h : i ≠ k) (a : Tx) :
    getq (q.set i a) k = getq q k := by
  simp only [getq, List.getD_eq_getD_get?, List.get?_set_ne a _ h]

theorem getq_swapq_j {q : List Tx} {i j : ℕ} (hj : j < q.length) :
    getq (swapq q i j) j = getq q i := by
  rw [swapq, getq_set_self (by simpa using hj)]

theorem getq_swapq_i {q : List Tx} {i j : ℕ} (hij : i ≠ j) (hi : i < q.length) :
    getq (swapq q i j) i = getq q j := by
  rw [swapq, getq_set_other (Ne.symm hij), getq_set_self hi]

theorem getq_swapq_other {q : List Tx} {i j k : ℕ} (hki : k ≠ i) (hkj : k ≠ j) :
    getq (swapq q i j) k = getq q k := by
  rw [swapq, getq_set_other (Ne.symm hkj), getq_set_other (Ne.symm hki)]

theorem getq_cons_succ (b : Tx) (t : List Tx) (m : ℕ) :
    getq (b :: t) (m + 1) = getq t m := by
  simp [getq]

theorem getq_cons_zero (b : Tx) (t : List Tx) : getq (b :: t) 0 = b := by
  simp [getq, List.getD]

theorem extract_set_perm (x : Tx) :
    ∀ (t : List Tx) (m : ℕ), m < t.length → List.Perm (getq t m :: t.set m x) (x :: t) := by
  intro t
  induction t with
  | nil => intro m hm; simp at hm
  | cons b t' ih =>
    intro m hm
    cases m with
    | zero =>
      rw [getq_cons_zero]
      simp only [List.set_cons_zero]
      exact List.Perm.swap x b t'
    | succ k =>
      rw [getq_cons_succ]
      simp only [List.set_cons_succ]
      refine List.Perm.trans (List.Perm.swap b (getq t' k) (t'.set k x)) ?_
      refine List.Perm.trans (List.Perm.cons b (ih k (by simpa using hm))) ?_
      exact List.Perm.swap x b t'

theorem swapq_perm : ∀ (q : List Tx) (i j : ℕ), i < q.length → j < q.length →
    List.Perm (swapq q i j) q := by
  intro q
  induction q with
  | nil => intro i j hi _; simp at hi
  | cons a t ih =>
    intro i j hi hj
    cases i with
    | zero =>
      cases j with
      | zero =>
        rw [swapq, getq_cons_zero]
        simp
      | succ m =>
        rw [swapq, getq_cons_zero, getq_cons_succ]
        simp only [List.set_cons_zero, List.set_cons_succ]
        exact extract_set_perm a t m (by simpa using hj)
    | succ k =>
      cases j with
      | zero =>
        rw [swapq, getq_cons_zero, getq_cons_succ]
        simp only [List.set_cons_zero, List.set_cons_succ]
        exact extract_set_perm a t k (by simpa using hi)
      | succ m =>
        rw [swapq, getq_cons_succ, getq_cons_succ]
        simp only [List.set_cons_succ]
        exact (ih k m (by simpa using hi) (by simpa using hj)).cons a

/-! ### Ancestors in the implicit binary tree -/

/-- `i` is an ancestor of `k` (including `k` itself) in the implicit
binary tree with parent `(k-1)/2`. -/
def isAnc (i : ℕ) (k : ℕ) : Bool :=
  if k = i then true
  else if k = 0 then false
  else isAnc i ((k - 1) / 2)
  termination_by k
  decreasing_by omega

theorem isAnc_self (i : ℕ) : isAnc i i = true := by
  rw [isAnc]
  simp

theorem isAnc_le {i : ℕ} : ∀ {k : ℕ}, isAnc i k = true → i ≤ k := by
  intro k
  induction k using Nat.strong_induction_on with
  | _ k ih =>
    intro h
    rw [isAnc] at h
    by_cases hk : k = i
    · omega
    · rw [if_neg hk] at h
      by_cases hk0 : k = 0
      · rw [if_pos hk0] at h
        simp at h
      · rw [if_neg hk0] at h
        have := ih ((k - 1) / 2) (by omega) h
        omega

theorem isAnc_step {i k : ℕ} (hk : k ≠ i) (hk0 : k ≠ 0) :
    isAnc i k = isAnc i ((k - 1) / 2) := by
  rw [isAnc, if_neg hk, if_neg hk0]

theorem childIdx_parent {p c : ℕ} (h : childIdx p c) : (c - 1) / 2 = p ∧ c ≠ 0 := by
  rcases h with h | h <;> omega

theorem isAnc_child {i p c : ℕ} (h : childIdx p c) :
    isAnc i c = true ↔ c = i ∨ isAnc i p = true := by
  obtain ⟨hp, hc0⟩ := childIdx_parent h
  by_cases hci : c = i
  · subst hci
    simp [isAnc_self]
  · rw [isAnc_step hci hc0, hp]
    simp [hci]

theorem isAnc_trans {i j : ℕ} : ∀ {k : ℕ}, isAnc i j = true → isAnc j k = true →
    isAnc i k = true := by
  intro k
  induction k using Nat.strong_induction_on with
  | _ k ih =>
    intro hij hjk
    by_cases hkj : k = j
    · subst hkj; exact hij
    · rw [isAnc] at hjk
      rw [if_neg hkj] at hjk
      by_cases hk0 : k = 0
      · rw [if_pos hk0] at hjk; simp at hjk
      · rw [if_neg hk0] at hjk
        have hrec := ih ((k - 1) / 2) (by omega) hij hjk
        by_cases hki : k = i
        · rw [hki]; exact isAnc_self i
        · rw [isAnc_step hki hk0]
          exact hrec

theorem isAnc_zero (k : ℕ) : isAnc 0 k = true := by
  induction k using Nat.strong_induction_on with
  | _ k ih =>
    by_cases hk : k = 0
    · subst hk; exact isAnc_self 0
    · rw [isAnc_step hk hk]
      exact ih ((k - 1) / 2) (by omega)

/-! ### `down` correctness -/

/-- `down` leaves every index outside the subtree of `i` unchanged. -/
theorem downq_outside : ∀ (fuel : ℕ) (q : List Tx) (i n k : ℕ),
    isAnc i k = false → getq (downq fuel q i n) k = getq q k := by
  intro fuel
  induction fuel with
  | zero => intro q i n k _; rw [downq]
  | succ fuel ih =>
    intro q i n k hk
    rw [downq]
    by_cases hj1 : 2 * i + 1 < n
    · rw [if_pos hj1]
      set j := if 2 * i + 1 + 1 < n ∧
          (getq q (2 * i + 1)).feeRate ≤ (getq q (2 * i + 1 + 1)).feeRate
        then 2 * i + 1 + 1 else 2 * i + 1 with hj
      have hchild : childIdx i j := by
        rw [hj]
        by_cases hc : 2 * i + 1 + 1 < n ∧
            (getq q (2 * i + 1)).feeRate ≤ (getq q (2 * i + 1 + 1)).feeRate
        · rw [if_pos hc]; right; omega
        · rw [if_neg hc]; left; rfl
      by_cases hle : (getq q j).feeRate ≤ (getq q i).feeRate
      · rw [if_pos hle]
      · rw [if_neg hle]
        have hkj : isAnc j k = false := by
          by_contra hc
          have hjk : isAnc j k = true := by revert hc; cases isAnc j k <;> simp
          have hij : isAnc i j = true := (isAnc_child hchild).mpr (Or.inr (isAnc_self i))
          have := isAnc_trans hij hjk
          simp [this] at hk
        rw [ih (swapq q i j) j n k hkj]
        have hki : k ≠ i := by
          intro hke
          subst hke
          simp [isAnc_self] at hk
        have hkj2 : k ≠ j := by
          intro hke
          subst hke
          simp [isAnc_self] at hkj
        exact getq_swapq_other hki hkj2
    · rw [if_neg hj1]

/-- `down` leaves indices at or beyond `n` unchanged. -/
theorem downq_high : ∀ (fuel : ℕ) (q : List Tx) (i n k : ℕ), n ≤ k →
    getq (downq fuel q i n) k = getq q k := by
  intro fuel
  induction fuel with
  | zero => intro q i n k _; rw [downq]
  | succ fuel ih =>
    intro q i n k hk
    rw [downq]
    by_cases hj1 : 2 * i + 1 < n
    · rw [if_pos hj1]
      set j := if 2 * i + 1 + 1 < n ∧
          (getq q (2 * i + 1)).feeRate ≤ (getq q (2 * i + 1 + 1)).feeRate
        then 2 * i + 1 + 1 else 2 * i + 1 with hj
      have hjn : j < n := by
        rw [hj]
        by_cases hc : 2 * i + 1 + 1 < n ∧
            (getq q (2 * i + 1)).feeRate ≤ (getq q (2 * i + 1 + 1)).feeRate
        · rw [if_pos hc]; omega
        · rw [if_neg hc]; omega
      by_cases hle : (getq q j).feeRate ≤ (getq q i).feeRate
      · rw [if_pos hle]
      · rw [if_neg hle]
        rw [ih (swapq q i j) j n k hk]
        exact getq_swapq_other (by omega) (by omega)
    · rw [if_neg hj1]

/-- `down` permutes the queue. -/
theorem downq_perm : ∀ (fuel : ℕ) (q : List Tx) (i n : ℕ), n ≤ q.length →
    List.Perm (downq fuel q i n) q := by
  intro fuel
  induction fuel with
  | zero => intro q i n _; rw [downq]
  | succ fuel ih =>
    intro q i n hn
    rw [downq]
    by_cases hj1 : 2 * i + 1 < n
    · rw [if_pos hj1]
      set j := if 2 * i + 1 + 1 < n ∧
          (getq q (2 * i + 1)).feeRate ≤ (getq q (2 * i + 1 + 1)).feeRate
        then 2 * i + 1 + 1 else 2 * i + 1 with hj
      have hjn : j < n := by
        rw [hj]
        by_cases hc : 2 * i + 1 + 1 < n ∧
            (getq q (2 * i + 1)).feeRate ≤ (getq q (2 * i + 1 + 1)).feeRate
        · rw [if_pos hc]; omega
        · rw [if_neg hc]; omega
      by_cases hle : (getq q j).feeRate ≤ (getq q i).feeRate
      · rw [if_pos hle]
      · rw [if_neg hle]
        refine List.Perm.trans (ih (swapq q i j) j n (by rw [length_swapq]; exact hn)) ?_
        exact swapq_perm q i j (by omega) (by omega)
    · rw [if_neg hj1]

theorem length_downq (fuel : ℕ) (q : List Tx) (i n : ℕ) (hn : n ≤ q.length) :
    (downq fuel q i n).length = q.length :=
  (downq_perm fuel q i n hn).length_eq

/-- The child chosen by `down` is in range, is a child of `i`, and has
the maximal fee rate among the in-range children of `i`. -/
theorem downq_select {q : List Tx} {i n j : ℕ}
    (hj : j = if 2 * i + 1 + 1 < n ∧
        (getq q (2 * i + 1)).feeRate ≤ (getq q (2 * i + 1 + 1)).feeRate
      then 2 * i + 1 + 1 else 2 * i + 1)
    (hj1 : 2 * i + 1 < n) :
    childIdx i j ∧ j < n ∧ i < j ∧
      ∀ c, childIdx i c → c < n → (getq q c).feeRate ≤ (getq q j).feeRate := by
  by_cases hc : 2 * i + 1 + 1 < n ∧
      (getq q (2 * i + 1)).feeRate ≤ (getq q (2 * i + 1 + 1)).feeRate
  · rw [hj, if_pos hc]
    refine ⟨Or.inr (by omega), by omega, by omega, ?_⟩
    intro c hcc hcn
    rcases hcc with h | h
    · rw [h]; exact hc.2
    · rw [h]
  · rw [hj, if_neg hc]
    refine ⟨Or.inl rfl, hj1, by omega, ?_⟩
    intro c hcc hcn
    rcases hcc with h | h
    · rw [h]
    · rw [h]
      rw [h] at hcn
      rcases not_and_or.mp hc with h2 | h2
      · exfalso; omega
      · have he : (2 : ℕ) * i + 1 + 1 = 2 * i + 2 := by omega
        rw [he] at h2
        exact le_of_lt (not_le.mp h2)

/-- In a heap restricted to edges with parent at least `i`, every value
in the subtree of `i` is at most the value at `i`. -/
theorem heap_chain_bound (q : List Tx) (n i : ℕ)
    (H : ∀ p c, c < n → childIdx p c → i ≤ p →
      (getq q c).feeRate ≤ (getq q p).feeRate) :
    ∀ k, k < n → isAnc i k = true → (getq q k).feeRate ≤ (getq q i).feeRate := by
  intro k
  induction k using Nat.strong_induction_on with
  | _ k ih =>
    intro hk hanc
    by_cases hki : k = i
    · rw [hki]
    · have hk0 : k ≠ 0 := by
        intro h
        subst h
        rw [isAnc] at hanc
        simp [hki] at hanc
      set p := (k - 1) / 2 with hp
      have hchild : childIdx p k := by
        rw [childIdx, hp]
        omega
      have hancp : isAnc i p = true := by
        rw [isAnc_step hki hk0] at hanc
        exact hanc
      have hip : i ≤ p := isAnc_le hancp
      have hpk : p < k := by omega
      exact le_trans (H p k hk hchild hip) (ih p hpk (by omega) hancp)

/-- `down` never raises a subtree value above a bound that dominates the
whole subtree. -/
theorem downq_bound : ∀ (fuel : ℕ) (q : List Tx) (i n : ℕ) (B : Int), n ≤ q.length →
    (∀ k, k < n → isAnc i k = true → (getq q k).feeRate ≤ B) →
    ∀ k, k < n → isAnc i k = true → (getq (downq fuel q i n) k).feeRate ≤ B := by
  intro fuel
  induction fuel with
  | zero => intro q i n B _ hB k hk hanc; rw [downq]; exact hB k hk hanc
  | succ fuel ih =>
    intro q i n B hn hB k hk hanc
    rw [downq]
    by_cases hj1 : 2 * i + 1 < n
    · rw [if_pos hj1]
      set j := if 2 * i + 1 + 1 < n ∧
          (getq q (2 * i + 1)).feeRate ≤ (getq q (2 * i + 1 + 1)).feeRate
        then 2 * i + 1 + 1 else 2 * i + 1 with hj
      obtain ⟨hchild, hjn, hij, hmax⟩ := downq_select hj hj1
      by_cases hle : (getq q j).feeRate ≤ (getq q i).feeRate
      · rw [if_pos hle]; exact hB k hk hanc
      · rw [if_neg hle]
        have hanc_ij : isAnc i j = true := (isAnc_child hchild).mpr (Or.inr (isAnc_self i))
        have hBsub : ∀ m, m < n → isAnc j m = true →
            (getq (swapq q i j) m).feeRate ≤ B := by
          intro m hm hancm
          by_cases hmj : m = j
          · rw [hmj, getq_swapq_j (by omega)]
            exact hB i (by omega) (isAnc_self i)
          · have hmi : m ≠ i := by
              intro h
              subst h
              have := isAnc_le hancm
              omega
            rw [getq_swapq_other hmi hmj]
            exact hB m hm (isAnc_trans hanc_ij hancm)
        by_cases hancjk : isAnc j k = true
        · exact ih (swapq q i j) j n B (by rw [length_swapq]; exact hn) hBsub k hk hancjk
        · rw [downq_outside fuel (swapq q i j) j n k (by
            revert hancjk; cases isAnc j k <;> simp)]
          by_cases hki : k = i
          · rw [hki, getq_swapq_i (by omega) (by omega)]
            exact hB j hjn hanc_ij
          · have hkj : k ≠ j := by
              intro h
              subst h
              simp [isAnc_self] at hancjk
            rw [getq_swapq_other hki hkj]
            exact hB k hk hanc
    · rw [if_neg hj1]; exact hB k hk hanc

/-- Main correctness of `down`: if every heap edge with parent strictly
below... strictly greater than `i` holds, then after sifting down at `i`
every heap edge with parent at least `i` holds. -/
theorem downq_heap : ∀ (fuel : ℕ) (q : List Tx) (i n : ℕ), n - i ≤ fuel →
    n ≤ q.length →
    (∀ p c, c < n → childIdx p c → i < p →
      (getq q c).feeRate ≤ (getq q p).feeRate) →
    ∀ p c, c < n → childIdx p c → i ≤ p →
      (getq (downq fuel q i n) c).feeRate ≤ (getq (downq fuel q i n) p).feeRate := by
  intro fuel
  induction fuel with
  | zero =>
    intro q i n hfuel hn H1 p c hc hch hip
    rw [downq]
    rcases Nat.eq_or_lt_of_le hip with rfl | hlt
    · rcases hch with h | h <;> omega
    · exact H1 p c hc hch hlt
  | succ fuel ih =>
    intro q i n hfuel hn H1 p c hc hch hip
    rw [downq]
    by_cases hj1 : 2 * i + 1 < n
    · rw [if_pos hj1]
      set j := if 2 * i + 1 + 1 < n ∧
          (getq q (2 * i + 1)).feeRate ≤ (getq q (2 * i + 1 + 1)).feeRate
        then 2 * i + 1 + 1 else 2 * i + 1 with hj
      obtain ⟨hchild, hjn, hij, hmax⟩ := downq_select hj hj1
      by_cases hle : (getq q j).feeRate ≤ (getq q i).feeRate
      · rw [if_pos hle]
        rcases Nat.eq_or_lt_of_le hip with rfl | hlt
        · exact le_trans (hmax c hch hc) hle
        · exact H1 p c hc hch hlt
      · rw [if_neg hle]
        have hanc_ij : isAnc i j = true := (isAnc_child hchild).mpr (Or.inr (isAnc_self i))
        have hn' : n ≤ (swapq q i j).length := by rw [length_swapq]; exact hn
        have H1' : ∀ p c, c < n → childIdx p c → j < p →
            (getq (swapq q i j) c).feeRate ≤ (getq (swapq q i j) p).feeRate := by
          intro p' c' hc' hch' hjp
          have hpc : p' < c' := by rcases hch' with h | h <;> omega
          rw [getq_swapq_other (by omega) (by omega),
            getq_swapq_other (show p' ≠ i by omega) (show p' ≠ j by omega)]
          exact H1 p' c' hc' hch' (by omega)
        have hrec := ih (swapq q i j) j n (by omega) hn' H1'
        rcases Nat.lt_or_ge p j with hpj | hpj
        · rcases Nat.eq_or_lt_of_le hip with heq | hplt
          · -- p = i: children of the sift position
            subst heq
            have hQi : getq (downq fuel (swapq q i j) j n) i = getq q j := by
              rw [downq_outside fuel _ j n i (by
                  by_contra hcc
                  have h3 : isAnc j i = true := by revert hcc; cases isAnc j i <;> simp
                  have := isAnc_le h3
                  omega),
                getq_swapq_i (by omega) (by omega)]
            by_cases hcj : c = j
            · rw [hQi, hcj]
              have hedges : ∀ p2 c2, c2 < n → childIdx p2 c2 → j ≤ p2 →
                  (getq q c2).feeRate ≤ (getq q p2).feeRate := by
                intro p2 c2 hc2 hch2 hjp2
                exact H1 p2 c2 hc2 hch2 (by omega)
              have hsubB : ∀ m, m < n → isAnc j m = true →
                  (getq (swapq q i j) m).feeRate ≤ (getq q j).feeRate := by
                intro m hm hancm
                by_cases hmj : m = j
                · rw [hmj, getq_swapq_j (by omega)]
                  exact le_of_lt (lt_of_not_le hle)
                · have hmi : m ≠ i := by
                    intro h
                    subst h
                    have := isAnc_le hancm
                    omega
                  rw [getq_swapq_other hmi hmj]
                  exact heap_chain_bound q n j hedges m hm hancm
              exact downq_bound fuel (swapq q i j) j n _ hn' hsubB j hjn (isAnc_self j)
            · -- c is the other child of i
              have hci : c ≠ i := by rcases hch with h | h <;> omega
              have hancjc : isAnc j c = false := by
                rcases (Bool.eq_false_or_eq_true (isAnc j c)) with h | h
                · exfalso
                  rcases (isAnc_child hch).mp h with h2 | h2
                  · exact hcj h2
                  · have := isAnc_le h2
                    omega
                · exact h
              rw [hQi, downq_outside fuel _ j n c hancjc,
                getq_swapq_other hci hcj]
              exact hmax c hch hc
          · -- i < p < j: untouched edge
            have hancjp : isAnc j p = false := by
              rcases Bool.eq_false_or_eq_true (isAnc j p) with h | h
              · exfalso; have := isAnc_le h; omega
              · exact h
            have hcj : c ≠ j := by
              intro h
              subst h
              obtain ⟨hpar, _⟩ := childIdx_parent hch
              obtain ⟨hpar2, _⟩ := childIdx_parent hchild
              omega
            have hancjc : isAnc j c = false := by
              rcases Bool.eq_false_or_eq_true (isAnc j c) with h | h
              · exfalso
                rcases (isAnc_child hch).mp h with h2 | h2
                · exact hcj h2
                · rw [h2] at hancjp; simp at hancjp
              · exact h
            have hpc : p < c := by rcases hch with h | h <;> omega
            rw [downq_outside fuel _ j n p hancjp, downq_outside fuel _ j n c hancjc,
              getq_swapq_other (show p ≠ i by omega) (show p ≠ j by omega),
              getq_swapq_other (show c ≠ i by omega) hcj]
            exact H1 p c hc hch hplt
        · exact hrec p c hc hch hpj
    · rw [if_neg hj1]
      rcases Nat.eq_or_lt_of_le hip with rfl | hlt
      · rcases hch with h | h <;> omega
      · exact H1 p c hc hch hlt

/-! ### `init`, `push`, `pop` -/

theorem getq_mem {q : List Tx} {k : ℕ} (h : k < q.length) : getq q k ∈ q := by
  rw [getq, List.getD_eq_get q _ h]
  exact List.get_mem _ _ _

theorem getq_append_left {q l : List Tx} {k : ℕ} (h : k < q.length) :
    getq (q ++ l) k = getq q k := by
  rw [getq, getq]
  exact List.getD_append _ _ _ _ h

theorem getq_take {Q : List Tx} {n k : ℕ} (h : k < n) :
    getq (Q.take n) k = getq Q k := by
  simp [getq, List.getD, List.getElem?_take_of_lt h]

theorem drop_eq_single : ∀ (Q : List Tx) (n : ℕ), Q.length = n + 1 →
    Q.drop n = [getq Q n] := by
  intro Q
  induction Q with
  | nil => intro n h; simp at h
  | cons a t ih =>
    intro n h
    cases n with
    | zero =>
      simp at h
      subst h
      simp [getq]
    | succ m =>
      rw [List.drop_succ_cons, getq_cons_succ]
      exact ih m (by simpa using h)

theorem initLoopq_spec (n : ℕ) : ∀ (k : ℕ) (q : List Tx), n ≤ q.length →
    (∀ p c, c < n → childIdx p c → k ≤ p →
      (getq q c).feeRate ≤ (getq q p).feeRate) →
    IsHeapN (initLoopq n k q) n ∧ List.Perm (initLoopq n k q) q := by
  intro k
  induction k with
  | zero =>
    intro q hn H
    rw [initLoopq]
    exact ⟨fun p c hc hch => H p c hc hch (Nat.zero_le p), List.Perm.refl q⟩
  | succ k ih =>
    intro q hn H
    rw [initLoopq]
    have hdown := downq_heap n q k n (by omega) hn
      (fun p c hc hch hkp => H p c hc hch (by omega))
    have hlen : n ≤ (downq n q k n).length := by
      rw [length_downq n q k n hn]; exact hn
    obtain ⟨hh, hp⟩ := ih (downq n q k n) hlen hdown
    exact ⟨hh, List.Perm.trans hp (downq_perm n q k n hn)⟩

/-- `txqueue.init` produces a heap-ordered permutation of its input. -/
theorem heapInitq_spec (q : List Tx) :
    IsHeapN (heapInitq q) q.length ∧ List.Perm (heapInitq q) q := by
  rw [heapInitq]
  exact initLoopq_spec q.length (q.length / 2) q (le_refl _)
    (fun p c hc hch hkp => by rcases hch with h | h <;> omega)

theorem length_heapInitq (q : List Tx) : (heapInitq q).length = q.length :=
  (heapInitq_spec q).2.length_eq

/-- Correctness of `up`: if every heap edge except possibly the one into
`j` holds, and the children of `j` are already bounded by `j`'s parent,
then sifting up at `j` restores the heap everywhere. -/
theorem upq_heap : ∀ (fuel : ℕ) (q : List Tx) (j : ℕ), j + 1 ≤ fuel → j < q.length →
    (∀ p c, c < q.length → childIdx p c → c ≠ j →
      (getq q c).feeRate ≤ (getq q p).feeRate) →
    (∀ c, c < q.length → childIdx j c → j ≠ 0 →
      (getq q c).feeRate ≤ (getq q ((j - 1) / 2)).feeRate) →
    IsHeapN (upq fuel q j) (upq fuel q j).length ∧ List.Perm (upq fuel q j) q := by
  intro fuel
  induction fuel with
  | zero => intro q j hfuel _ _ _; omega
  | succ fuel ih =>
    intro q j hfuel hj H1 H2
    rw [upq]
    by_cases hstop : (j - 1) / 2 = j ∨ (getq q j).feeRate ≤ (getq q ((j - 1) / 2)).feeRate
    · rw [if_pos hstop]
      refine ⟨?_, List.Perm.refl q⟩
      intro p c hc hch
      by_cases hcj : c = j
      · subst hcj
        obtain ⟨hpar, hc0⟩ := childIdx_parent hch
        rcases hstop with h | h
        · omega
        · rw [hpar] at h
          exact h
      · exact H1 p c hc hch hcj
    · rw [if_neg hstop]
      push_neg at hstop
      obtain ⟨hij, hlt⟩ := hstop
      set i := (j - 1) / 2 with hi
      have hj0 : j ≠ 0 := by
        intro h
        subst h
        simp [hi] at hij
      have hijlt : i < j := by omega
      have hilen : i < (swapq q i j).length := by rw [length_swapq]; omega
      have hchij : childIdx i j := by rw [childIdx, hi]; omega
      have H1' : ∀ p c, c < (swapq q i j).length → childIdx p c → c ≠ i →
          (getq (swapq q i j) c).feeRate ≤ (getq (swapq q i j) p).feeRate := by
        rw [length_swapq]
        intro p c hc hch hci
        by_cases hcj : c = j
        · subst hcj
          obtain ⟨hpar, _⟩ := childIdx_parent hch
          have hpi : p = i := by rw [← hpar, hi]
          subst hpi
          rw [getq_swapq_j (by omega), getq_swapq_i (by omega) (by omega)]
          exact le_of_lt hlt
        · by_cases hpj : p = j
          · subst hpj
            rw [getq_swapq_other hci hcj, getq_swapq_j (by omega)]
            exact H2 c hc hch hj0
          · by_cases hpi : p = i
            · subst hpi
              rw [getq_swapq_other hci hcj, getq_swapq_i (by omega) (by omega)]
              exact le_trans (H1 i c hc hch hcj) (le_of_lt hlt)
            · rw [getq_swapq_other hci hcj, getq_swapq_other hpi hpj]
              exact H1 p c hc hch hcj
      have H2' : ∀ c, c < (swapq q i j).length → childIdx i c → i ≠ 0 →
          (getq (swapq q i j) c).feeRate ≤
            (getq (swapq q i j) ((i - 1) / 2)).feeRate := by
        rw [length_swapq]
        intro c hc hch hi0
        have hg : (i - 1) / 2 < i := by omega
        have hgne : (i - 1) / 2 ≠ i := by omega
        have hgnej : (i - 1) / 2 ≠ j := by omega
        have hchgi : childIdx ((i - 1) / 2) i := by rw [childIdx]; omega
        rw [getq_swapq_other hgne hgnej]
        by_cases hcj : c = j
        · subst hcj
          rw [getq_swapq_j (by omega)]
          exact H1 ((i - 1) / 2) i (by omega) hchgi (by omega)
        · have hcnei : c ≠ i := by rcases hch with h | h <;> omega
          rw [getq_swapq_other hcnei hcj]
          exact le_trans (H1 i c hc hch hcj)
            (H1 ((i - 1) / 2) i (by omega) hchgi (by omega))
      obtain ⟨hh, hp⟩ := ih (swapq q i j) i (by omega) hilen H1' H2'
      exact ⟨hh, List.Perm.trans hp (swapq_perm q i j (by omega) (by omega))⟩

/-- `txqueue.push` preserves the heap and adds the new element. -/
theorem pushq_spec (q : List Tx) (tx : Tx) (hq : IsHeapN q q.length) :
    IsHeapN (pushq q tx) (pushq q tx).length ∧
      List.Perm (pushq q tx) (q ++ [tx]) := by
  rw [pushq]
  refine upq_heap (q.length + 1) (q ++ [tx]) q.length (by omega) (by simp) ?_ ?_
  · intro p c hc hch hcj
    simp only [List.length_append, List.length_singleton] at hc
    have hcq : c < q.length := by omega
    have hpq : p < q.length := by rcases hch with h | h <;> omega
    rw [getq_append_left hcq, getq_append_left hpq]
    exact hq p c hcq hch
  · intro c hc hch _
    rcases hch with h | h <;> (simp only [List.length_append, List.length_singleton] at hc; omega)

/-- `txqueue.pop` on a heap returns the root, leaves a heap, and removes
exactly that element. -/
theorem popq_spec (q : List Tx) (hq : IsHeapN q q.length) (hne : q ≠ []) :
    (popq q).1 = getq q 0 ∧ IsHeapN (popq q).2 (popq q).2.length ∧
      List.Perm ((popq q).1 :: (popq q).2) q := by
  have hlen : 1 ≤ q.length := by
    cases q with
    | nil => exact absurd rfl hne
    | cons a t => simp
  rw [popq]
  simp only []
  set n := q.length - 1 with hn
  set q1 := swapq q 0 n with hq1
  have hq1len : q1.length = q.length := by rw [hq1, length_swapq]
  have hH1 : ∀ p c, c < n → childIdx p c → 0 < p →
      (getq q1 c).feeRate ≤ (getq q1 p).feeRate := by
    intro p c hc hch hp
    have hpc : p < c := by rcases hch with h | h <;> omega
    rw [hq1, getq_swapq_other (by omega) (by omega),
      getq_swapq_other (by omega) (by omega)]
    exact hq p c (by omega) hch
  have hdown := downq_heap q.length q1 0 n (by omega) (by omega) hH1
  set q2 := downq q.length q1 0 n with hq2
  have hq2len : q2.length = q.length := by
    rw [hq2, length_downq q.length q1 0 n (by omega), hq1len]
  have hvert : getq q2 n = getq q 0 := by
    rw [hq2, downq_high q.length q1 0 n n (le_refl n), hq1, getq_swapq_j (by omega)]
  refine ⟨hvert, ?_, ?_⟩
  · intro p c hc hch
    rw [List.length_take] at hc
    have hcn : c < n := by omega
    have hpn : p < n := by rcases hch with h | h <;> omega
    rw [getq_take hcn, getq_take hpn]
    exact hdown p c hcn hch (Nat.zero_le p)
  · have hsplit : q2 = q2.take n ++ [getq q2 n] := by
      conv_lhs => rw [← List.take_append_drop n q2]
      rw [drop_eq_single q2 n (by omega)]
    have hperm2 : List.Perm q2 q :=
      List.Perm.trans (downq_perm q.length q1 0 n (by omega)) (swapq_perm q 0 n (by omega) (by omega))
    have h1 : List.Perm (getq q2 n :: q2.take n) (q2.take n ++ [getq q2 n]) :=
      (List.perm_append_singleton _ _).symm
    rw [← hsplit] at h1
    exact List.Perm.trans h1 hperm2

/-- In a heap, every element is at most the root by fee rate. -/
theorem heap_root_max (q : List Tx) (hq : IsHeapN q q.length) :
    ∀ tx ∈ q, tx.feeRate ≤ (getq q 0).feeRate := by
  intro tx htx
  obtain ⟨⟨k, hk⟩, hget⟩ := List.mem_iff_get.mp htx
  have : getq q k = tx := by rw [getq, List.getD_eq_get q _ hk, hget]
  rw [← this]
  exact heap_chain_bound q q.length 0
    (fun p c hc hch _ => hq p c hc hch) k hk (isAnc_zero k)

/-- Queue states reachable by `init` on an arbitrary vector followed by
any sequence of `push` and `pop` operations (sim/heap.go). -/
inductive HeapReach : List Tx → Prop
  | init (v : List Tx) : HeapReach (heapInitq v)
  | push (q : List Tx) (tx : Tx) : HeapReach q → HeapReach (pushq q tx)
  | pop (q : List Tx) : HeapReach q → q ≠ [] → HeapReach (popq q).2

theorem heapReach_isHeap {q : List Tx} (hq : HeapReach q) : IsHeapN q q.length := by
  induction hq with
  | init v => exact length_heapInitq v ▸ (heapInitq_spec v).1
  | push q tx _ ih => exact (pushq_spec q tx ih).1
  | pop q _ hne ih => exact (popq_spec q ih hne).2.1

/-- C9: on every queue state reachable by `init` on an arbitrary
transaction vector followed by any sequence of `push` and `pop`
operations, a non-empty queue's `pop` removes and returns a transaction
whose fee rate is maximal among the queued transactions; consequently a
second `pop` without an intervening `push` yields a fee rate at most the
first. -/
theorem txqueue_pop_max (q : List Tx) (hq : HeapReach q) (hne : q ≠ []) :
    (popq q).1 ∈ q ∧
      (∀ tx ∈ q, tx.feeRate ≤ (popq q).1.feeRate) ∧
      List.Perm ((popq q).1 :: (popq q).2) q ∧
      ((popq q).2 ≠ [] → (popq (popq q).2).1.feeRate ≤ (popq q).1.feeRate) := by
  have hheap := heapReach_isHeap hq
  obtain ⟨hv, hheap2, hperm⟩ := popq_spec q hheap hne
  have hqlen : 0 < q.length := by
    cases q with
    | nil => exact absurd rfl hne
    | cons a t => simp
  have hmem : (popq q).1 ∈ q := by
    rw [hv]
    exact getq_mem hqlen
  have hmax : ∀ tx ∈ q, tx.feeRate ≤ (popq q).1.feeRate := by
    intro tx htx
    rw [hv]
    exact heap_root_max q hheap tx htx
  refine ⟨hmem, hmax, hperm, ?_⟩
  intro h2ne
  have hreach2 : HeapReach (popq q).2 := HeapReach.pop q hq hne
  have hheap3 := heapReach_isHeap hreach2
  obtain ⟨hv2, _, _⟩ := popq_spec (popq q).2 hheap3 h2ne
  have h2len : 0 < (popq q).2.length := by
    cases hc : (popq q).2 with
    | nil => exact absurd hc h2ne
    | cons a t => simp
  have hmem2 : (popq (popq q).2).1 ∈ (popq q).2 := by
    rw [hv2]
    exact getq_mem h2len
  have hmemq : (popq (popq q).2).1 ∈ q :=
    hperm.mem_iff.mp (List.mem_cons_of_mem _ hmem2)
  exact hmax _ hmemq

/-- Witness for C9: heapify `[{5,100}, {9,100}, {7,100}]`; the first pop
returns the fee-9 transaction, removes exactly one element, and the next
pop returns a lower fee rate. -/
theorem txqueue_pop_max_witness :
    (popq (heapInitq [⟨5, 100⟩, ⟨9, 100⟩, ⟨7, 100⟩])).1 ∈
        heapInitq [⟨5, 100⟩, ⟨9, 100⟩, ⟨7, 100⟩] ∧
      List.Perm
        ((popq (heapInitq [⟨5, 100⟩, ⟨9, 100⟩, ⟨7, 100⟩])).1 ::
          (popq (heapInitq [⟨5, 100⟩, ⟨9, 100⟩, ⟨7, 100⟩])).2)
        (heapInitq [⟨5, 100⟩, ⟨9, 100⟩, ⟨7, 100⟩]) ∧
      (popq (popq (heapInitq [⟨5, 100⟩, ⟨9, 100⟩, ⟨7, 100⟩])).2).1.feeRate ≤
        (popq (heapInitq [⟨5, 100⟩, ⟨9, 100⟩, ⟨7, 100⟩])).1.feeRate :=
  have h := txqueue_pop_max (heapInitq [⟨5, 100⟩, ⟨9, 100⟩, ⟨7, 100⟩])
    (HeapReach.init _) (by decide)
  ⟨h.1, h.2.2.1, h.2.2.2 (by decide)⟩

/-! ## `Sim.NextBlock` (sim/sim.go lines 117-178)

The random draws are externalised: the block policy drawn from the block
source and the transactions generated by the tx source for the drawn
interval are parameters.  Since `NewSim` clears the `Parents` of every
initial-mempool transaction (lines 55-57) and recomputes `children` from
the cleared parents (lines 85-102), and generated transactions carry no
dependencies, `processchildren` never pushes anything on any reachable
`Sim`; the dependency fields are therefore omitted.  The popping loop
removes one queue element per iteration (spilled transactions are only
re-appended after the loop), so fuel `|queue| + 1` is adequate. -/

/-- `BlockPolicy` (sim/common.go lines 31-34). -/
structure BlockPolicy where
  maxBlockSize : TxSize
  minFeeRate : FeeRate
  deriving Repr, DecidableEq

/-- The deterministic per-call state of a `Sim`. -/
structure SimState where
  stablefee : FeeRate
  minTxSize : TxSize
  queue : List Tx
  deriving Repr, DecidableEq

/-- State of the popping loop of `NextBlock`, with two ghost outputs:
`included` lists every transaction accepted into the block, and
`includedFree` those accepted while `sizeltd == 0` (only these update
the running minimum `sfr`, sim.go lines 145-149). -/
structure LoopOut where
  queue : List Tx
  blocksize : TxSize
  sizeltd : Int
  sfr : FeeRate
  spilled : List Tx
  included : List Tx
  includedFree : List Tx
  deriving Repr, DecidableEq

/-- The popping loop of `NextBlock` (sim.go lines 134-162). -/
def nextBlockLoop (b : BlockPolicy) (minTxSize : TxSize) :
    ℕ → List Tx → TxSize → Int → FeeRate → List Tx → List Tx → List Tx → LoopOut
  | 0, queue, blocksize, sizeltd, sfr, spilled, included, includedFree =>
    ⟨queue, blocksize, sizeltd, sfr, spilled, included, includedFree⟩
  | fuel + 1, queue, blocksize, sizeltd, sfr, spilled, included, includedFree =>
    if queue.isEmpty then ⟨queue, blocksize, sizeltd, sfr, spilled, included, includedFree⟩
    else if b.maxBlockSize - blocksize < minTxSize then
      ⟨queue, blocksize, 1, sfr, spilled, included, includedFree⟩
    else
      let tx := (popq queue).1
      let queue' := (popq queue).2
      if tx.feeRate ≥ b.minFeeRate then
        if blocksize + tx.size ≤ b.maxBlockSize then
          if sizeltd > 0 then
            nextBlockLoop b minTxSize fuel queue' (blocksize + tx.size) (sizeltd - 1) sfr
              spilled (included ++ [tx]) includedFree
          else
            nextBlockLoop b minTxSize fuel queue' (blocksize + tx.size) sizeltd
              (if tx.feeRate < sfr then tx.feeRate else sfr)
              spilled (included ++ [tx]) (includedFree ++ [tx])
        else
          nextBlockLoop b minTxSize fuel queue' blocksize (sizeltd + 1) sfr
            (spilled ++ [tx]) included includedFree
      else
        ⟨queue' ++ [tx], blocksize, sizeltd, sfr, spilled, included, includedFree⟩

/-- Result of `NextBlock`, with the ghost inclusion lists. -/
structure NBResult where
  sfr : FeeRate
  blocksize : TxSize
  state : SimState
  sizeltd : Int
  included : List Tx
  includedFree : List Tx
  deriving Repr, DecidableEq

/-- `Sim.NextBlock`, as a function of the drawn block policy and the
drawn tx arrivals. -/
def nextBlock (st : SimState) (b : BlockPolicy) (newtxs : List Tx) : NBResult :=
  let queue0 :=
    heapInitq (st.queue ++ newtxs.filter (fun tx => decide (tx.feeRate ≥ st.stablefee)))
  let r := nextBlockLoop b st.minTxSize (queue0.length + 1) queue0 0 0 MaxFeeRate [] [] []
  let sfr1 :=
    if r.sizeltd > 0 then (if r.sfr < MaxFeeRate then r.sfr + 1 else r.sfr) else b.minFeeRate
  let sfr2 := if sfr1 < st.stablefee then st.stablefee else sfr1
  ⟨sfr2, r.blocksize, ⟨st.stablefee, st.minTxSize, r.queue ++ r.spilled⟩, r.sizeltd,
    r.included, r.includedFree⟩

/-- A trajectory of `NextBlock` calls: fold the sim state over a list of
drawn `(policy, arrivals)` pairs, collecting the emitted
`(sfr, blocksize)` outputs. -/
def simSteps (st : SimState) : List (BlockPolicy × List Tx) → List (FeeRate × TxSize)
  | [] => []
  | d :: rest =>
    ((nextBlock st d.1 d.2).sfr, (nextBlock st d.1 d.2).blocksize) ::
      simSteps (nextBlock st d.1 d.2).state rest

/-- The running-minimum update of the loop (sim.go lines 147-149),
folded over a list. -/
def minFold (init : FeeRate) (l : List Tx) : FeeRate :=
  l.foldl (fun acc tx => if tx.feeRate < acc then tx.feeRate else acc) init

/-- Every `NextBlock` call returns an `sfr` clipped up to the stable fee
(sim.go lines 174-176). -/
theorem clip_ge (a b : Int) : b ≤ if a < b then b else a := by
  split <;> omega

theorem clip_eq_max (a b : Int) : (if a < b then b else a) = b ⊔ a := by
  split
  · next h => exact (sup_eq_left.mpr (le_of_lt h)).symm
  · next h => exact (sup_eq_right.mpr (by omega)).symm

theorem nextBlock_sfr_ge (st : SimState) (b : BlockPolicy) (newtxs : List Tx) :
    st.stablefee ≤ (nextBlock st b newtxs).sfr := by
  simp only [nextBlock]
  exact clip_ge _ _

/-- C3: over any sequence of `NextBlock` calls from a fresh reset (any
starting state), every emitted `sfr` is at least the sim's stable fee. -/
theorem simSteps_sfr_ge_stablefee (st : SimState) (draws : List (BlockPolicy × List Tx)) :
    ∀ out ∈ simSteps st draws, st.stablefee ≤ out.1 := by
  induction draws generalizing st with
  | nil => intro out hout; simp [simSteps] at hout
  | cons d rest ih =>
    intro out hout
    rw [simSteps] at hout
    rcases List.mem_cons.mp hout with h | h
    · rw [h]
      exact nextBlock_sfr_ge st d.1 d.2
    · have hst : (nextBlock st d.1 d.2).state.stablefee = st.stablefee := rfl
      have := ih (nextBlock st d.1 d.2).state out h
      rw [hst] at this
      exact this

/-- Witness for C3: a two-block trajectory from a concrete state with
stable fee 5. -/
theorem simSteps_sfr_ge_stablefee_witness :
    (5 : Int) ≤ ((simSteps ⟨5, 1, [⟨10, 100⟩]⟩
      [(⟨1000, 2⟩, []), (⟨1000, 3⟩, [⟨7, 50⟩])]).headD (0, 0)).1 :=
  simSteps_sfr_ge_stablefee ⟨5, 1, [⟨10, 100⟩]⟩
    [(⟨1000, 2⟩, []), (⟨1000, 3⟩, [⟨7, 50⟩])]
    ((simSteps ⟨5, 1, [⟨10, 100⟩]⟩
      [(⟨1000, 2⟩, []), (⟨1000, 3⟩, [⟨7, 50⟩])]).headD (0, 0))
    (by decide)

/-- The loop's running minimum equals the `minFold` of exactly the
transactions included while the spill counter was zero. -/
theorem nextBlockLoop_sfr_spec (b : BlockPolicy) (mts : TxSize) :
    ∀ (fuel : ℕ) (queue : List Tx) (blocksize : TxSize) (sizeltd : Int) (sfr : FeeRate)
      (spilled included includedFree : List Tx),
      ∃ d : List Tx,
        (nextBlockLoop b mts fuel queue blocksize sizeltd sfr spilled included
            includedFree).includedFree = includedFree ++ d ∧
          (nextBlockLoop b mts fuel queue blocksize sizeltd sfr spilled included
            includedFree).sfr = minFold sfr d := by
  intro fuel
  induction fuel with
  | zero =>
    intro queue blocksize sizeltd sfr spilled included includedFree
    exact ⟨[], by simp [nextBlockLoop, minFold]⟩
  | succ fuel ih =>
    intro queue blocksize sizeltd sfr spilled included includedFree
    rw [nextBlockLoop]
    by_cases hemp : queue.isEmpty
    · rw [if_pos hemp]
      exact ⟨[], by simp [minFold]⟩
    · rw [if_neg hemp]
      by_cases hfull : b.maxBlockSize - blocksize < mts
      · rw [if_pos hfull]
        exact ⟨[], by simp [minFold]⟩
      · rw [if_neg hfull]
        by_cases hfee : (popq queue).1.feeRate ≥ b.minFeeRate
        · rw [if_pos hfee]
          by_cases hsize : blocksize + (popq queue).1.size ≤ b.maxBlockSize
          · rw [if_pos hsize]
            by_cases hltd : sizeltd > 0
            · rw [if_pos hltd]
              exact ih _ _ _ _ _ _ _
            · rw [if_neg hltd]
              obtain ⟨d, hd1, hd2⟩ := ih (popq queue).2 (blocksize + (popq queue).1.size)
                sizeltd (if (popq queue).1.feeRate < sfr then (popq queue).1.feeRate else sfr)
                spilled (included ++ [(popq queue).1]) (includedFree ++ [(popq queue).1])
              refine ⟨(popq queue).1 :: d, ?_, ?_⟩
              · rw [hd1, List.append_assoc]
                rfl
              · rw [hd2, minFold, minFold, List.foldl_cons]
          · rw [if_neg hsize]
            exact ih _ _ _ _ _ _ _
        · rw [if_neg hfee]
          exact ⟨[], by simp [minFold]⟩

/-- C2 (amended): for every `NextBlock` call that terminates size-limited,
the returned `sfr` is one plus the minimum fee rate over the transactions
that were included while no spill was pending — a transaction included
while the spill counter is positive decrements the counter instead of
updating the running minimum (sim.go lines 145-149) — clipped at
`MaxFeeRate` (hypothesis `hmin`) and then clipped up to the stable fee. -/
theorem nextBlock_sizeltd_sfr (st : SimState) (b : BlockPolicy) (newtxs : List Tx)
    (hsz : 0 < (nextBlock st b newtxs).sizeltd)
    (hmin : minFold MaxFeeRate (nextBlock st b newtxs).includedFree < MaxFeeRate) :
    (nextBlock st b newtxs).sfr =
      max st.stablefee (minFold MaxFeeRate (nextBlock st b newtxs).includedFree + 1) := by
  obtain ⟨d, hd1, hd2⟩ := nextBlockLoop_sfr_spec b st.minTxSize
    ((heapInitq (st.queue ++ newtxs.filter
      (fun tx => decide (tx.feeRate ≥ st.stablefee)))).length + 1)
    (heapInitq (st.queue ++ newtxs.filter
      (fun tx => decide (tx.feeRate ≥ st.stablefee)))) 0 0 MaxFeeRate [] [] []
  have hif : (nextBlock st b newtxs).includedFree = d := by
    simp only [nextBlock]
    rw [hd1]
    rfl
  have hsfr : minFold MaxFeeRate (nextBlock st b newtxs).includedFree =
      (nextBlockLoop b st.minTxSize
        ((heapInitq (st.queue ++ newtxs.filter
          (fun tx => decide (tx.feeRate ≥ st.stablefee)))).length + 1)
        (heapInitq (st.queue ++ newtxs.filter
          (fun tx => decide (tx.feeRate ≥ st.stablefee)))) 0 0 MaxFeeRate [] [] []).sfr := by
    rw [hif, hd2]
  have hsz2 : 0 < (nextBlockLoop b st.minTxSize
      ((heapInitq (st.queue ++ newtxs.filter
        (fun tx => decide (tx.feeRate ≥ st.stablefee)))).length + 1)
      (heapInitq (st.queue ++ newtxs.filter
        (fun tx => decide (tx.feeRate ≥ st.stablefee)))) 0 0 MaxFeeRate [] [] []).sizeltd := by
    simpa only [nextBlock] using hsz
  rw [hsfr] at hmin ⊢
  simp only [nextBlock]
  rw [if_pos (by omega : (nextBlockLoop b st.minTxSize
      ((heapInitq (st.queue ++ newtxs.filter
        (fun tx => decide (tx.feeRate ≥ st.stablefee)))).length + 1)
      (heapInitq (st.queue ++ newtxs.filter
        (fun tx => decide (tx.feeRate ≥ st.stablefee)))) 0 0 MaxFeeRate [] [] []).sizeltd > 0),
    if_pos hmin]
  exact clip_eq_max _ _

/-- Counterexample to C2 as stated: with stable fee 0, minimum tx size
40, mempool `[{10,600}, {9,100}, {8,40}, {7,100}]`, block policy
`{max 650, min 1}` and no arrivals, the call is size-limited and
includes `{10,600}` and `{8,40}`, so the claim predicts
`sfr = min(10,8) + 1 = 9`; the code returns `11` because `{8,40}` was
included while a spill was pending and only decremented the counter. -/
theorem nextBlock_claim_counterexample :
    0 < (nextBlock ⟨0, 40, [⟨10, 600⟩, ⟨9, 100⟩, ⟨8, 40⟩, ⟨7, 100⟩]⟩ ⟨650, 1⟩ []).sizeltd ∧
      (nextBlock ⟨0, 40, [⟨10, 600⟩, ⟨9, 100⟩, ⟨8, 40⟩, ⟨7, 100⟩]⟩ ⟨650, 1⟩ []).included =
        [⟨10, 600⟩, ⟨8, 40⟩] ∧
      minFold MaxFeeRate
          ((nextBlock ⟨0, 40, [⟨10, 600⟩, ⟨9, 100⟩, ⟨8, 40⟩, ⟨7, 100⟩]⟩ ⟨650, 1⟩ []).included)
          + 1 = 9 ∧
      (nextBlock ⟨0, 40, [⟨10, 600⟩, ⟨9, 100⟩, ⟨8, 40⟩, ⟨7, 100⟩]⟩ ⟨650, 1⟩ []).sfr = 11 := by
  decide

/-- Witness for the amended C2 at the same concrete call: the returned
`sfr` is `1` plus the minimum over the spill-free inclusions. -/
theorem nextBlock_sizeltd_sfr_witness :
    (nextBlock ⟨0, 40, [⟨10, 600⟩, ⟨9, 100⟩, ⟨8, 40⟩, ⟨7, 100⟩]⟩ ⟨650, 1⟩ []).sfr =
      max (0 : Int) (minFold MaxFeeRate
        ((nextBlock ⟨0, 40, [⟨10, 600⟩, ⟨9, 100⟩, ⟨8, 40⟩, ⟨7, 100⟩]⟩
          ⟨650, 1⟩ []).includedFree) + 1) :=
  nextBlock_sizeltd_sfr ⟨0, 40, [⟨10, 600⟩, ⟨9, 100⟩, ⟨8, 40⟩, ⟨7, 100⟩]⟩ ⟨650, 1⟩ []
    (by decide) (by decide)

/-! ## The transient driver's aggregation (sim TransientSim.run)

`run` collects the union of all per-iteration fee rates into `f`
(reverse-sorted by `feeRateSlice.ReverseSort`), computes for each fee
stratum the `MinSuccessPct` percentile `p` of the confirmation-time
histogram (the code panics unless `p` is ascending — "p should be
sorted." — so a completed run satisfies it), and then builds the result
vector by binary search (`sort.SearchInts`).  The embedding takes `f`
and `p` at that point, with the sortedness facts as hypotheses. -/

/-- `sort.SearchInts`. -/
def searchInts (a : List Int) (x : Int) : ℕ :=
  goSearch a.length (fun i => decide (a.getD i 0 ≥ x))

/-- The final loop of `TransientSim.run` (lines 345-355):
`result[i] = f[idx-1]` for `idx = SearchInts(p, i+2)` if `idx > 0`,
else `-1`. -/
def transientResult (f : List FeeRate) (p : List Int) (M : ℕ) : List FeeRate :=
  (List.range M).map (fun i : ℕ =>
    if searchInts p ((i : Int) + 2) > 0 then f.getD (searchInts p ((i : Int) + 2) - 1) 0
    else -1)

theorem sorted_getD_le_int (xs : List Int) (h : xs.Sorted (· ≤ ·)) {a b : ℕ}
    (hab : a ≤ b) (hb : b < xs.length) : xs.getD a 0 ≤ xs.getD b 0 := by
  have ha : a < xs.length := lt_of_le_of_lt hab hb
  rw [List.getD_eq_get _ _ ha, List.getD_eq_get _ _ hb]
  rcases Nat.eq_or_lt_of_le hab with rfl | hlt
  · exact le_refl _
  · exact h.rel_get_of_lt (by simpa using hlt)

theorem sorted_getD_ge_int (ys : List Int) (h : ys.Sorted (· ≥ ·)) {a b : ℕ}
    (hab : a ≤ b) (hb : b < ys.length) : ys.getD b 0 ≤ ys.getD a 0 := by
  have ha : a < ys.length := lt_of_le_of_lt hab hb
  rw [List.getD_eq_get _ _ ha, List.getD_eq_get _ _ hb]
  rcases Nat.eq_or_lt_of_le hab with rfl | hlt
  · exact le_refl _
  · exact h.rel_get_of_lt (by simpa using hlt)

theorem searchInts_le (a : List Int) (x : Int) : searchInts a x ≤ a.length :=
  goSearch_le _ _

theorem searchInts_searchMono (a : List Int) (h : a.Sorted (· ≤ ·)) (x : Int) :
    SearchMono a.length (fun i => decide (a.getD i 0 ≥ x)) := by
  intro i j hij hj hfi
  simp only [decide_eq_true_iff, ge_iff_le] at hfi ⊢
  exact le_trans hfi (sorted_getD_le_int a h hij hj)

theorem searchInts_below (a : List Int) (h : a.Sorted (· ≤ ·)) (x : Int) :
    ∀ k, k < searchInts a x → a.getD k 0 < x := by
  intro k hk
  have h2 := goSearch_false_below a.length _ (searchInts_searchMono a h x) k hk
  simp only [decide_eq_false_iff_not, ge_iff_le, not_le] at h2
  exact h2

theorem searchInts_at (a : List Int) (x : Int) (h : searchInts a x < a.length) :
    x ≤ a.getD (searchInts a x) 0 := by
  have h2 := goSearch_true_at a.length (fun i => decide (a.getD i 0 ≥ x)) h
  simp only [decide_eq_true_iff, ge_iff_le] at h2
  exact h2

theorem searchInts_le_of_ge (a : List Int) (h : a.Sorted (· ≤ ·)) (x : Int)
    {k : ℕ} (hk : k < a.length) (hge : x ≤ a.getD k 0) : searchInts a x ≤ k := by
  by_contra hc
  have := searchInts_below a h x k (by omega)
  exact absurd hge (not_le.mpr this)

theorem searchInts_mono_target (a : List Int) (h : a.Sorted (· ≤ ·)) {x y : Int}
    (hxy : x ≤ y) : searchInts a x ≤ searchInts a y := by
  rcases Nat.lt_or_ge (searchInts a y) a.length with hlt | hge
  · exact searchInts_le_of_ge a h x hlt (le_trans hxy (searchInts_at a y hlt))
  · have := searchInts_le a x
    omega

theorem transientResult_getD (f : List FeeRate) (p : List Int) (M : ℕ) {i : ℕ}
    (hi : i < M) :
    (transientResult f p M).getD i 0 =
      if searchInts p ((i : Int) + 2) > 0 then f.getD (searchInts p ((i : Int) + 2) - 1) 0
      else -1 := by
  rw [transientResult, List.getD_eq_getElem _ _ (by simpa using hi)]
  simp

/-- C4: for every completed (not stopped) transient-driver run, the
result vector is non-increasing: `result[i] ≥ result[i+1]` whenever both
entries are `≥ 0`.  Hypotheses: `f` is the reverse-sorted stratum list
produced by `ReverseSort`, `p` the per-stratum percentiles, ascending
because the run passed the code's own sortedness assertion, and
`len p = len f` by construction (`p := make([]int, len(f))`). -/
theorem transientResult_nonincreasing (f : List FeeRate) (p : List Int) (M : ℕ)
    (hf : f.Sorted (· ≥ ·)) (hp : p.Sorted (· ≤ ·)) (hlen : p.length = f.length)
    {i : ℕ} (hi : i + 1 < M)
    (h0 : 0 ≤ (transientResult f p M).getD i 0)
    (h1 : 0 ≤ (transientResult f p M).getD (i + 1) 0) :
    (transientResult f p M).getD (i + 1) 0 ≤ (transientResult f p M).getD i 0 := by
  rw [@transientResult_getD f p M i (by omega)] at h0
  rw [@transientResult_getD f p M (i + 1) hi] at h1
  rw [@transientResult_getD f p M (i + 1) hi, @transientResult_getD f p M i (by omega)]
  push_cast at h0 h1 ⊢
  by_cases hz0 : searchInts p ((i : Int) + 2) > 0
  · rw [if_pos hz0] at h0 ⊢
    by_cases hz1 : searchInts p ((i : Int) + 1 + 2) > 0
    · rw [if_pos hz1] at h1 ⊢
      have hmono : searchInts p ((i : Int) + 2) ≤ searchInts p ((i : Int) + 1 + 2) :=
        searchInts_mono_target p hp (by omega)
      have hle1 := searchInts_le p ((i : Int) + 1 + 2)
      exact sorted_getD_ge_int f hf (by omega) (by omega)
    · rw [if_neg hz1] at h1
      norm_num at h1
  · rw [if_neg hz0] at h0
    norm_num at h0

/-- Witness for C4 at `f = [10, 5]`, `p = [1, 2]`, `M = 2`: the result
vector is `[10, 5]` and entry 1 is at most entry 0. -/
theorem transientResult_nonincreasing_witness :
    (transientResult [10, 5] [1, 2] 2).getD (0 + 1) 0 ≤
      (transientResult [10, 5] [1, 2] 2).getD 0 0 :=
  transientResult_nonincreasing [10, 5] [1, 2] 2 (by decide) (by decide) (by decide)
    (by decide) (by decide) (by decide)

/-! ## Predictor (predict package, part_001)

Go maps become association lists (keys unique in any state the
collector builds, though the theorems do not need that); the predictor
state pointer (`nil` before the first call) becomes an `Option`; the
`db.PutTxs` write becomes the second component of the result. -/

/-- `collect.MempoolEntry` restricted to the methods `AddPredicts`
uses: `FeeRate()`, `Depends()` and `IsHighPriority()`. -/
structure MempoolEntry where
  feeRate : FeeRate
  depends : List String
  isHighPriority : Bool
  deriving Repr, DecidableEq

/-- `collect.MempoolState` restricted to the fields `AddPredicts`
uses: `Height` and `Entries`. -/
structure MempoolState where
  height : Int
  entries : List (String × MempoolEntry)
  deriving Repr, DecidableEq

/-- The `Entries` component of `MempoolState.Sub` (collect.go):
the entries of `s` whose txid is not a key of `t`. -/
def MempoolState.subEntries (s t : MempoolState) : List (String × MempoolEntry) :=
  s.entries.filter (fun e => !(t.entries.any (fun e2 => e2.1 == e.1)))

/-- `predict.Tx`: a stored prediction. -/
structure PredictTx where
  confirmIn : Int
  confirmBy : Int
  deriving Repr, DecidableEq

/-- `predict.Predictor` restricted to what `AddPredicts` reads and
writes: `cfg.MaxBlockConfirms` and the previous mempool state. -/
structure Predictor where
  maxBlockConfirms : ℕ
  state : Option MempoolState
  deriving Repr, DecidableEq

/-- `searchResult` (part_001 lines 157-164): `sort.Search` over
`x >= result[i] && result[i] != -1`. -/
def searchResult (result : List FeeRate) (x : FeeRate) : ℕ :=
  goSearch result.length
    (fun i => decide (x ≥ result.getD i 0 ∧ result.getD i 0 ≠ -1))

/-- `Predictor.AddPredicts` (part_001 lines 113-142).  The deferred
`p.state = s` runs on every path; with a `nil` previous state nothing
is stored.  The Go local `confirmIn := searchResult(simResult,
entry.FeeRate()) + 1` is inlined at its two uses. -/
def addPredicts (p : Predictor) (s : MempoolState) (simResult : List FeeRate) :
    Predictor × List (String × PredictTx) :=
  match p.state with
  | none => ({ p with state := some s }, [])
  | some prev =>
      ({ p with state := some s },
       (s.subEntries prev).filterMap (fun te =>
         if te.2.depends.length > 0 ∨ te.2.isHighPriority = true then none
         else if searchResult simResult te.2.feeRate + 1 > simResult.length ∨
             searchResult simResult te.2.feeRate + 1 > p.maxBlockConfirms then none
         else some (te.1,
           ⟨((searchResult simResult te.2.feeRate + 1 : ℕ) : Int),
            s.height + ((searchResult simResult te.2.feeRate + 1 : ℕ) : Int)⟩)))

/-- Shape of every completed transient result vector (the form
`AddPredicts` receives): the `-1` entries form a prefix, and from
some point on the entries are nonnegative and non-increasing.  This
is what makes the `searchResult` binary-search predicate monotone. -/
def ResultValid (result : List FeeRate) : Prop :=
  ∃ k : ℕ, (∀ i, i < k → result.getD i 0 = -1) ∧
    (∀ i, k ≤ i → i < result.length → 0 ≤ result.getD i 0) ∧
    (∀ i j, k ≤ i → i ≤ j → j < result.length →
      result.getD j 0 ≤ result.getD i 0)

theorem searchResult_searchMono (result : List FeeRate) (hv : ResultValid result)
    (x : FeeRate) :
    SearchMono result.length
      (fun i => decide (x ≥ result.getD i 0 ∧ result.getD i 0 ≠ -1)) := by
  obtain ⟨k, hpre, hnn, hanti⟩ := hv
  intro a b hab hb hfa
  simp only [decide_eq_true_iff, ge_iff_le] at hfa ⊢
  obtain ⟨hxa, hne⟩ := hfa
  have hka : k ≤ a := by
    by_contra hc
    exact hne (hpre a (by omega))
  refine ⟨le_trans (hanti a b hka hab hb) hxa, ?_⟩
  have hb0 := hnn b (by omega) hb
  intro hc
  rw [hc] at hb0
  exact absurd hb0 (by norm_num)

/-- C5: for every `AddPredicts` call after the first (a previous state
is recorded), a prediction is stored exactly for the txids present in
`s` but not in the previous state that have no mempool dependencies
and are not high priority, with `confirmIn` equal to one plus the
least result index whose entry is `≤` the tx's fee rate and `≠ -1`,
the tx skipped whenever that count exceeds `len(simResult)` or
`MaxBlockConfirms`, and `confirmBy = s.Height + confirmIn`. -/
theorem addPredicts_stored_exactly (p : Predictor) (prev s : MempoolState)
    (simResult : List FeeRate) (hstate : p.state = some prev)
    (hv : ResultValid simResult) (txid : String) (tx : PredictTx) :
    (txid, tx) ∈ (addPredicts p s simResult).2 ↔
      ∃ e : MempoolEntry, (txid, e) ∈ s.entries ∧
        (∀ e' : MempoolEntry, (txid, e') ∉ prev.entries) ∧
        e.depends = [] ∧ e.isHighPriority = false ∧
        ∃ ci : ℕ, ci < simResult.length ∧
          simResult.getD ci 0 ≤ e.feeRate ∧ simResult.getD ci 0 ≠ -1 ∧
          (∀ j, j < ci →
            ¬(simResult.getD j 0 ≤ e.feeRate ∧ simResult.getD j 0 ≠ -1)) ∧
          ci + 1 ≤ p.maxBlockConfirms ∧
          tx.confirmIn = (ci : Int) + 1 ∧
          tx.confirmBy = s.height + ((ci : Int) + 1) := by
  have hmono := fun x => searchResult_searchMono simResult hv x
  constructor
  · intro hmem
    simp only [addPredicts, hstate] at hmem
    rw [List.mem_filterMap] at hmem
    obtain ⟨te, hte, hsome⟩ := hmem
    by_cases hskip : te.2.depends.length > 0 ∨ te.2.isHighPriority = true
    · rw [if_pos hskip] at hsome; exact absurd hsome (by simp)
    rw [if_neg hskip] at hsome
    push_neg at hskip
    by_cases hskip2 : searchResult simResult te.2.feeRate + 1 > simResult.length ∨
        searchResult simResult te.2.feeRate + 1 > p.maxBlockConfirms
    · rw [if_pos hskip2] at hsome; exact absurd hsome (by simp)
    rw [if_neg hskip2] at hsome
    push_neg at hskip2
    rw [Option.some_inj] at hsome
    obtain ⟨h1, h2⟩ := Prod.ext_iff.mp hsome
    simp only at h1 h2
    rw [MempoolState.subEntries, List.mem_filter] at hte
    obtain ⟨htes, hfilter⟩ := hte
    simp only [Bool.not_eq_true', List.any_eq_false, beq_iff_eq] at hfilter
    refine ⟨te.2, ?_, ?_, ?_, ?_, ?_⟩
    · rw [← h1]; exact htes
    · intro e' hmem'
      exact hfilter (txid, e') hmem' h1.symm
    · exact List.length_eq_zero.mp (by omega)
    · simpa using hskip.2
    · have hci : searchResult simResult te.2.feeRate < simResult.length := by omega
      have htrue := goSearch_true_at simResult.length
        (fun i => decide (te.2.feeRate ≥ simResult.getD i 0 ∧ simResult.getD i 0 ≠ -1))
        hci
      simp only [decide_eq_true_iff, ge_iff_le] at htrue
      refine ⟨searchResult simResult te.2.feeRate, hci, htrue.1, htrue.2, ?_, ?_, ?_, ?_⟩
      · intro j hj
        have hfalse := goSearch_false_below simResult.length
          (fun i => decide (te.2.feeRate ≥ simResult.getD i 0 ∧ simResult.getD i 0 ≠ -1))
          (hmono te.2.feeRate) j hj
        simpa [decide_eq_false_iff_not, ge_iff_le] using hfalse
      · omega
      · rw [← h2]; dsimp only; push_cast; ring
      · rw [← h2]; dsimp only; push_cast; ring
  · rintro ⟨e, hes, hprev, hdep, hpri, ci, hci, hcle, hcne, hmin, hmc, hcin, hcby⟩
    have hsr : searchResult simResult e.feeRate = ci := by
      have hfci : (fun i => decide (e.feeRate ≥ simResult.getD i 0 ∧
          simResult.getD i 0 ≠ -1)) ci = true := by
        simp only [decide_eq_true_iff, ge_iff_le]
        exact ⟨hcle, hcne⟩
      obtain ⟨hle, htr, hbel⟩ :=
        goSearch_least simResult.length _ (hmono e.feeRate) ci hci hfci
      rcases eq_or_lt_of_le hle with h | h
      · exact h
      · exfalso
        simp only [decide_eq_true_iff, ge_iff_le] at htr
        exact hmin _ h htr
    simp only [addPredicts, hstate]
    rw [List.mem_filterMap]
    refine ⟨(txid, e), ?_, ?_⟩
    · rw [MempoolState.subEntries, List.mem_filter]
      refine ⟨hes, ?_⟩
      simp only [Bool.not_eq_true', List.any_eq_false, beq_iff_eq]
      rintro ⟨tid2, e2⟩ hmem2 heq2
      simp only at heq2
      subst heq2
      exact hprev e2 hmem2
    · have hc1 : ¬(e.depends.length > 0 ∨ e.isHighPriority = true) := by
        simp [hdep, hpri]
      have hc2 : ¬(searchResult simResult e.feeRate + 1 > simResult.length ∨
          searchResult simResult e.feeRate + 1 > p.maxBlockConfirms) := by
        rw [hsr]; omega
      dsimp only
      rw [if_neg hc1, if_neg hc2, hsr, Option.some_inj]
      cases tx
      dsimp only at hcin hcby
      simp only [Prod.mk.injEq, PredictTx.mk.injEq]
      refine ⟨trivial, ?_, ?_⟩
      · push_cast
        omega
      · push_cast
        omega

/-- Witness for C5: previous state at height 99 with no entries, new
state at height 100 with one free-standing tx of fee rate 7, result
vector `[-1, 5, 3]`; the least qualifying index is 1, so the stored
prediction is `{confirmIn = 2, confirmBy = 102}`. -/
theorem addPredicts_stored_exactly_witness :
    ("a", (⟨2, 102⟩ : PredictTx)) ∈
      (addPredicts ⟨6, some ⟨99, []⟩⟩ ⟨100, [("a", ⟨7, [], false⟩)]⟩
        [-1, 5, 3]).2 :=
  (addPredicts_stored_exactly ⟨6, some ⟨99, []⟩⟩ ⟨99, []⟩
      ⟨100, [("a", ⟨7, [], false⟩)]⟩ [-1, 5, 3] rfl
      ⟨1, fun i hi => by
          rcases i with _ | i
          · rfl
          · omega,
        fun i h1 h2 => by
          simp only [List.length_cons, List.length_nil] at h2
          rcases i with _ | _ | _ | i
          · omega
          · decide
          · decide
          · omega,
        fun i j h1 h2 h3 => by
          simp only [List.length_cons, List.length_nil] at h3
          rcases i with _ | _ | _ | i <;> rcases j with _ | _ | _ | j <;>
            first | omega | decide⟩
      "a" ⟨2, 102⟩).mpr
    ⟨⟨7, [], false⟩, by decide, fun e' => List.not_mem_nil _, rfl, rfl,
      1, by decide, by decide, by decide,
      fun j hj => by
        rcases j with _ | j
        · decide
        · omega,
      by decide, by decide, by decide⟩

/-- C10: the first `AddPredicts` call (no previous state recorded)
stores no predictions, whatever its arguments; its only effect is to
record the given state (the config is untouched), so predictions can
begin only from the second call onward. -/
theorem addPredicts_first_call (p : Predictor) (s : MempoolState)
    (simResult : List FeeRate) (hstate : p.state = none) :
    (addPredicts p s simResult).2 = [] ∧
      (addPredicts p s simResult).1.state = some s ∧
      (addPredicts p s simResult).1.maxBlockConfirms = p.maxBlockConfirms := by
  simp [addPredicts, hstate]

/-- Witness for C10 on a fresh predictor with a nonempty state and a
nonempty result vector. -/
theorem addPredicts_first_call_witness :
    (addPredicts ⟨6, none⟩ ⟨100, [("a", ⟨7, [], false⟩)]⟩ [5]).2 = [] ∧
      (addPredicts ⟨6, none⟩ ⟨100, [("a", ⟨7, [], false⟩)]⟩ [5]).1.state =
        some ⟨100, [("a", ⟨7, [], false⟩)]⟩ ∧
      (addPredicts ⟨6, none⟩ ⟨100, [("a", ⟨7, [], false⟩)]⟩
          [5]).1.maxBlockConfirms = 6 :=
  addPredicts_first_call ⟨6, none⟩ ⟨100, [("a", ⟨7, [], false⟩)]⟩ [5] rfl

/-! ## Block-source estimation tails (estimate package, part_002)

`sizedata` is the list of `(mempoolDiff, blockSize)` pairs, `sfrdata`
the list of `(mempoolSize, sfr)` pairs; both are appended to in the
same guarded branch, so they always have the same length `k`.
`sort.Sort` (unstable, `Less` comparing the first component with `<`)
is embedded as an insertion sort by `≤` on the first component, one
admissible output of the unstable sort. -/

def sortSizeData (sizedata : List (Int × Int)) : List (Int × Int) :=
  sizedata.insertionSort (fun a b => a.1 ≤ b.1)

def sortSFRData (sfrdata : List (Int × FeeRate)) : List (Int × FeeRate) :=
  sfrdata.insertionSort (fun a b => a.1 ≤ b.1)

/-- `tailidx := int(c.TailPct*float64(len(sfrdata))) + 1` (part_002
line 210); Go `int()` truncates toward zero. -/
def tailIdx (tailPct : ℚ) (k : ℕ) : ℕ := (goTrunc (tailPct * k)).toNat + 1

/-- Lines 208-220 of part_002: sort both sample lists ascending by
their first component, keep the `blockSize` fields of
`sizedata[len(sizedata)-tailidx:]` and the `sfr` fields of
`sfrdata[:tailidx]`. -/
def estimateTails (tailPct : ℚ) (sizedata : List (Int × Int))
    (sfrdata : List (Int × FeeRate)) : List TxSize × List FeeRate :=
  (((sortSizeData sizedata).drop
      (sizedata.length - tailIdx tailPct sfrdata.length)).map (fun a => a.2),
   ((sortSFRData sfrdata).take (tailIdx tailPct sfrdata.length)).map (fun a => a.2))

theorem sorted_sortSizeData (l : List (Int × Int)) :
    List.Sorted (fun a b : Int × Int => a.1 ≤ b.1) (sortSizeData l) := by
  letI : IsTotal (Int × Int) (fun a b => a.1 ≤ b.1) := ⟨fun a b => le_total a.1 b.1⟩
  letI : IsTrans (Int × Int) (fun a b => a.1 ≤ b.1) :=
    ⟨fun a b c hab hbc => le_trans hab hbc⟩
  exact List.sorted_insertionSort _ l

theorem sorted_sortSFRData (l : List (Int × FeeRate)) :
    List.Sorted (fun a b : Int × FeeRate => a.1 ≤ b.1) (sortSFRData l) := by
  letI : IsTotal (Int × FeeRate) (fun a b => a.1 ≤ b.1) := ⟨fun a b => le_total a.1 b.1⟩
  letI : IsTrans (Int × FeeRate) (fun a b => a.1 ≤ b.1) :=
    ⟨fun a b c hab hbc => le_trans hab hbc⟩
  exact List.sorted_insertionSort _ l

/-- C7 (amended): with `k ≥ 1` surviving sample pairs and a tail
fraction for which `tailidx = int(tail_pct·k)+1` (a truncation, not a
ceiling) stays within range, both returned arrays have exactly
`⌊tail_pct·k⌋ + 1` entries; the sizes come from the
highest-`mempoolDiff` tail of the ascending sort (every kept sample's
`mempoolDiff` is `≥` every dropped sample's) and the fee rates from
the lowest-`mempoolSize` head (every kept sample's `mempoolSize` is
`≤` every dropped sample's). -/
theorem estimateTails_spec (tailPct : ℚ) (sizedata : List (Int × Int))
    (sfrdata : List (Int × FeeRate)) (hlen : sizedata.length = sfrdata.length)
    (hidx : tailIdx tailPct sfrdata.length ≤ sfrdata.length) :
    ((estimateTails tailPct sizedata sfrdata).1.length =
        (goTrunc (tailPct * (sfrdata.length : ℕ))).toNat + 1 ∧
      (estimateTails tailPct sizedata sfrdata).2.length =
        (goTrunc (tailPct * (sfrdata.length : ℕ))).toNat + 1) ∧
      (∀ a ∈ (sortSizeData sizedata).take
          (sizedata.length - tailIdx tailPct sfrdata.length),
        ∀ b ∈ (sortSizeData sizedata).drop
          (sizedata.length - tailIdx tailPct sfrdata.length), a.1 ≤ b.1) ∧
      (∀ a ∈ (sortSFRData sfrdata).take (tailIdx tailPct sfrdata.length),
        ∀ b ∈ (sortSFRData sfrdata).drop (tailIdx tailPct sfrdata.length),
          a.1 ≤ b.1) := by
  have hlss : (sortSizeData sizedata).length = sizedata.length :=
    List.length_insertionSort _ _
  have hlsf : (sortSFRData sfrdata).length = sfrdata.length :=
    List.length_insertionSort _ _
  refine ⟨⟨?_, ?_⟩, ?_, ?_⟩
  · rw [estimateTails]
    simp only [List.length_map, List.length_drop, hlss]
    rw [tailIdx] at hidx ⊢
    omega
  · rw [estimateTails]
    simp only [List.length_map, List.length_take, hlsf]
    rw [tailIdx] at hidx ⊢
    omega
  · have hs := sorted_sortSizeData sizedata
    have hsplit : List.Pairwise (fun a b : Int × Int => a.1 ≤ b.1)
        ((sortSizeData sizedata).take
            (sizedata.length - tailIdx tailPct sfrdata.length) ++
          (sortSizeData sizedata).drop
            (sizedata.length - tailIdx tailPct sfrdata.length)) := by
      rw [List.take_append_drop]
      exact hs
    exact (List.pairwise_append.mp hsplit).2.2
  · have hs := sorted_sortSFRData sfrdata
    have hsplit : List.Pairwise (fun a b : Int × FeeRate => a.1 ≤ b.1)
        ((sortSFRData sfrdata).take (tailIdx tailPct sfrdata.length) ++
          (sortSFRData sfrdata).drop (tailIdx tailPct sfrdata.length)) := by
      rw [List.take_append_drop]
      exact hs
    exact (List.pairwise_append.mp hsplit).2.2

/-- C7 counterexample to the claimed ceiling: with `tail_pct = 1/2`
and a single sample pair (`k = 1`), the code keeps
`int(0.5) + 1 = 1` entry in each array, while the claim's
`ceil(0.5) + 1 = 2`. -/
theorem estimateTails_ceil_counterexample :
    ((estimateTails (1/2) [(0, 500)] [(0, 3)]).1.length = 1 ∧
      (estimateTails (1/2) [(0, 500)] [(0, 3)]).2.length = 1) ∧
      (⌈(1/2 : ℚ) * ((1 : ℕ) : ℚ)⌉ + 1 : ℤ) = 2 := by
  refine ⟨⟨?_, ?_⟩, ?_⟩
  · norm_num [estimateTails, tailIdx, goTrunc, sortSizeData, sortSFRData]
  · norm_num [estimateTails, tailIdx, goTrunc, sortSizeData, sortSFRData]
  · have h : (⌈(1/2 : ℚ) * ((1 : ℕ) : ℚ)⌉ : ℤ) = 1 := by
      rw [show ((1/2 : ℚ) * ((1 : ℕ) : ℚ)) = 1/2 by norm_num]
      rw [Int.ceil_eq_iff]
      constructor <;> norm_num
    omega

/-- Witness for C7 at `tail_pct = 1/2` and two sample pairs: the kept
size array has `⌊1⌋ + 1 = 2` entries. -/
theorem estimateTails_spec_witness :
    (estimateTails (1/2) [(1, 100), (0, 200)] [(2, 5), (1, 9)]).1.length =
      (goTrunc ((1/2 : ℚ) *
        ((([(2, 5), (1, 9)] : List (Int × FeeRate)).length : ℕ) : ℚ))).toNat + 1 :=
  (estimateTails_spec (1/2) [(1, 100), (0, 200)] [(2, 5), (1, 9)] rfl
    (by norm_num [tailIdx, goTrunc])).1.1

end Feesim
